import Mathlib

/-!
Verification development for the yeet secret-resolution and environment-file
synchronization engine.

The definitions below are shallow embeddings of the Go source:
 - internal/config/config.go        (configuration model, validation)
 - internal/cli/fetch.go            (secret resolution orchestrator)
 - internal/envwriter (provider.go) (environment-file synchronizer)
 - internal/cli/run.go              (override-file reader loadEnvOverrides)

Go maps are embedded as association lists whose keys are unique by
construction (Go map semantics); map iteration order is fixed to list
order, which is observationally faithful wherever the source's result does
not depend on iteration order, and claims quantify over orders elsewhere.
Strings are Lean strings; byte-level operations work on the underlying
character lists (the source only manipulates ASCII in the relevant paths).
-/

namespace Yeet

/-! ### Association-list embedding of Go string maps -/

/-- An environment map, embedding Go map[string]string. -/
abbrev EnvMap := List (String × String)

/-- Go map assignment m[k] = v: replaces the binding if the key is present,
otherwise appends a fresh binding. -/
def upsert (m : EnvMap) (k v : String) : EnvMap :=
  match m with
  | [] => [(k, v)]
  | p :: rest => if p.1 = k then (k, v) :: rest else p :: upsert rest k v

/-- Keys of an association list. -/
def keysOf {β : Type} (m : List (String × β)) : List String := m.map Prod.fst

/-! ### Configuration model (internal/config/config.go) -/

/-- ValueSpec: a typed value specification. Type is "keyvault" or "literal"
in valid configurations (Go models the type as a string). -/
structure ValueSpec where
  Typ : String
  Value : String
deriving DecidableEq, Repr

/-- Mapping: per env-var entry, optional local/docker specs plus a global
fallback encoded by the zero values of Typ and Value, exactly as in Go. -/
structure Mapping where
  Local : Option ValueSpec
  Docker : Option ValueSpec
  Typ : String
  Value : String
deriving DecidableEq, Repr

/-- Environment selector. -/
inductive Environment where
  | EnvLocal
  | EnvDocker
deriving DecidableEq, Repr

/-- Config: vault name plus the mapping table (Go map embedded as an
association list with unique keys). -/
structure Config where
  KeyVaultName : String
  Mappings : List (String × Mapping)
deriving DecidableEq, Repr

/-- The global-fallback branch of GetValueSpec: present when both Type and
Value are non-empty, mirroring the Go condition. -/
def Mapping.globalSpec (m : Mapping) : Option ValueSpec :=
  if m.Typ ≠ "" ∧ m.Value ≠ "" then some ⟨m.Typ, m.Value⟩ else none

/-- GetValueSpec from config.go: environment-specific spec when present,
else the global fallback, else none. -/
def Mapping.GetValueSpec (m : Mapping) (env : Environment) : Option ValueSpec :=
  match env with
  | .EnvLocal =>
    match m.Local with
    | some s => some s
    | none => m.globalSpec
  | .EnvDocker =>
    match m.Docker with
    | some s => some s
    | none => m.globalSpec

/-- IsKeyvaultSecret on a possibly-nil spec pointer. -/
def IsKeyvaultSecret : Option ValueSpec → Bool
  | some v => v.Typ == "keyvault"
  | none => false

/-- IsLiteral on a possibly-nil spec pointer. -/
def IsLiteral : Option ValueSpec → Bool
  | some v => v.Typ == "literal"
  | none => false

/-- Characters allowed as the head of an env-var name: [A-Z_]. -/
def envVarHeadChar (c : Char) : Bool :=
  ('A' ≤ c ∧ c ≤ 'Z') ∨ c = '_'

/-- Characters allowed in the tail of an env-var name: [A-Z0-9_]. -/
def envVarTailChar (c : Char) : Bool :=
  ('A' ≤ c ∧ c ≤ 'Z') ∨ ('0' ≤ c ∧ c ≤ '9') ∨ c = '_'

/-- Whether a character list matches the anchored regex [A-Z_][A-Z0-9_]*
in full (used by envVarRegex with ^...$). -/
def envVarRegexMatchC (l : List Char) : Bool :=
  match l with
  | [] => false
  | c :: rest => envVarHeadChar c && rest.all envVarTailChar

/-- envVarRegex.MatchString from config.go: full match of
[A-Z_][A-Z0-9_]* against the string. -/
def envVarRegexMatch (s : String) : Bool := envVarRegexMatchC s.data

/-- validateEnvironmentVarName from config.go. -/
def validateEnvironmentVarName (key : String) : Except String Unit :=
  if envVarRegexMatch key then .ok () else .error ("invalid env var name: " ++ key)

/-- validateMappingHasValues from config.go. -/
def validateMappingHasValues (key : String) (m : Mapping) : Except String Unit :=
  if m.Local.isSome || m.Docker.isSome || (m.Typ ≠ "" && m.Value ≠ "") then .ok ()
  else .error ("mapping for " ++ key ++ " must have at least one value specification")

/-- validateValueSpec from config.go. -/
def validateValueSpec (key context : String) (spec : ValueSpec) : Except String Unit :=
  if spec.Value = "" then .error ("value cannot be empty for " ++ key ++ " in " ++ context)
  else if spec.Typ ≠ "keyvault" ∧ spec.Typ ≠ "literal" then
    .error ("invalid type for " ++ key ++ " in " ++ context)
  else .ok ()

/-- validateIndividualSpecs from config.go. -/
def validateIndividualSpecs (key : String) (m : Mapping) : Except String Unit := do
  match m.Local with
  | some s => validateValueSpec key "local" s
  | none => pure ()
  match m.Docker with
  | some s => validateValueSpec key "docker" s
  | none => pure ()
  if m.Typ ≠ "" ∧ m.Value ≠ "" then
    validateValueSpec key "global" ⟨m.Typ, m.Value⟩
  else
    pure ()

/-- validateMapping from config.go. -/
def validateMapping (key : String) (m : Mapping) : Except String Unit := do
  validateEnvironmentVarName key
  validateMappingHasValues key m
  validateIndividualSpecs key m

/-- validateConfig from config.go (mapping iteration order is the list
order; rejection is order-independent). -/
def validateConfig (cfg : Config) : Except String Unit := do
  if cfg.KeyVaultName = "" then
    throw "keyVaultName is required"
  else if cfg.Mappings = [] then
    throw "at least one mapping is required"
  else
    cfg.Mappings.forM (fun p => validateMapping p.1 p.2)

/-! ### Secret resolution orchestrator (internal/cli/fetch.go) -/

/-- Outcome of one backend GetSecret call: found, the NotFoundError
classification, or any other (hard) error. -/
inductive FetchOutcome where
  | Found (value : String)
  | NotFound
  | HardError (msg : String)
deriving DecidableEq, Repr

/-- The secret backend, abstracted to a synchronous lookup. -/
abbrev SecretStore := String → FetchOutcome

/-- One resolved (env var, environment, value) triple. -/
structure secretResult where
  key : String
  value : String
  environment : Environment
deriving DecidableEq, Repr

/-- Insertion into the deduplicating set secretsToFetch (Go map[string]bool
key set, kept in first-reference order). -/
def insertUnique (l : List String) (x : String) : List String :=
  if x ∈ l then l else l ++ [x]

/-- Collection of one effective spec into secretsToFetch: only keyvault
specs contribute (the nil-or-keyvault test of fetchSecrets). -/
def optInsert (acc : List String) (o : Option ValueSpec) : List String :=
  match o with
  | some s => if s.Typ == "keyvault" then insertUnique acc s.Value else acc
  | none => acc

/-- One mapping's contribution to secretsToFetch: its effective local spec
then its effective docker spec. -/
def collectStep (acc : List String) (p : String × Mapping) : List String :=
  optInsert (optInsert acc (p.2.GetValueSpec .EnvLocal)) (p.2.GetValueSpec .EnvDocker)

/-- The distinct Key Vault secret identifiers referenced by the mappings in
either environment (fetchSecrets lines 109-120): each element triggers
exactly one GetSecret goroutine. -/
def collectSecrets (mappings : List (String × Mapping)) : List String :=
  mappings.foldl collectStep []

/-- fetchKeyVaultSecret from fetch.go: NotFound is recorded in the missing
list and the task succeeds; any other error fails the task with a wrapped
error; success stores the value in the cache keyed by secret name. -/
def fetchKeyVaultSecret (store : SecretStore) (secretName : String)
    (cache : EnvMap) (missing : List String) : Except String (EnvMap × List String) :=
  match store secretName with
  | .Found v => .ok (upsert cache secretName v, missing)
  | .NotFound => .ok (cache, missing ++ ["secret: " ++ secretName])
  | .HardError e => .error ("failed to get secret " ++ secretName ++ ": " ++ e)

/-- The fetch loop over a given completion order of the distinct secret
names, started from a given cache and missing list. -/
def runFetchesFrom (store : SecretStore) (cache : EnvMap) (missing : List String)
    (names : List String) : Except String (EnvMap × List String) :=
  names.foldlM (fun acc name => fetchKeyVaultSecret store name acc.1 acc.2) (cache, missing)

/-- The fetch loop over a given completion order of the distinct secret
names: the first hard error aborts the whole batch with no partial result
(errgroup.Wait discards the maps), NotFound only extends the missing list. -/
def runFetches (store : SecretStore) (names : List String) :
    Except String (EnvMap × List String) :=
  runFetchesFrom store [] [] names

/-- Processing of one effective spec in the result-building loop of
fetchSecrets: keyvault specs consult the cache and report a missing entry
when absent; other specs copy their value through. -/
def processResultSpec (cache : EnvMap) (envKey label : String)
    (env : Environment) (o : Option ValueSpec)
    (acc : List secretResult × List String) : List secretResult × List String :=
  match o with
  | some spec =>
    if spec.Typ == "keyvault" then
      match cache.lookup spec.Value with
      | some v => (acc.1 ++ [⟨envKey, v, env⟩], acc.2)
      | none => (acc.1, acc.2 ++ [envKey ++ label ++ spec.Value])
    else (acc.1 ++ [⟨envKey, spec.Value, env⟩], acc.2)
  | none => acc

/-- One mapping's contribution to the results: its local spec then its
docker spec. -/
def buildResultsStep (cache : EnvMap) (acc : List secretResult × List String)
    (p : String × Mapping) : List secretResult × List String :=
  processResultSpec cache p.1 " (docker) -> " .EnvDocker (p.2.GetValueSpec .EnvDocker)
    (processResultSpec cache p.1 " (local) -> " .EnvLocal (p.2.GetValueSpec .EnvLocal) acc)

/-- The result-building loop of fetchSecrets (lines 137-175): walks the
mappings in order and emits one secretResult per environment whose
effective spec resolves, consulting the cache for keyvault specs. -/
def buildResults (cache : EnvMap) (mappings : List (String × Mapping))
    (missing0 : List String) : List secretResult × List String :=
  mappings.foldl (buildResultsStep cache) (([], missing0))

/-- fetchSecrets from fetch.go, with the concurrent completion order of the
secret fetches made explicit as a parameter (the canonical fetchSecrets
below fixes it to first-reference order). -/
def fetchSecretsOrdered (store : SecretStore) (cfg : Config) (order : List String) :
    Except String (List secretResult × List String) := do
  let c ← runFetches store order
  .ok (buildResults c.1 cfg.Mappings c.2)

/-- fetchSecrets from fetch.go (canonical completion order). -/
def fetchSecrets (store : SecretStore) (cfg : Config) :
    Except String (List secretResult × List String) :=
  fetchSecretsOrdered store cfg (collectSecrets cfg.Mappings)

/-- Grouping of one secretResult into the per-environment maps. -/
def groupStep (maps : EnvMap × EnvMap) (r : secretResult) : EnvMap × EnvMap :=
  match r.environment with
  | .EnvLocal => (upsert maps.1 r.key r.value, maps.2)
  | .EnvDocker => (maps.1, upsert maps.2 r.key r.value)

/-- The grouping loop of buildEnvMaps (lines 211-218). -/
def groupResults (results : List secretResult) : EnvMap × EnvMap :=
  results.foldl groupStep (([], []))

/-- The local half of the fallback loop body of buildEnvMaps (lines
222-231): fill a literal local value if the key is still absent. -/
def fillLocalLiteral (acc : EnvMap × EnvMap) (p : String × Mapping) : EnvMap × EnvMap :=
  if (acc.1.lookup p.1).isSome then acc
  else
    match p.2.GetValueSpec .EnvLocal with
    | some spec =>
      if spec.Typ == "literal" then (upsert acc.1 p.1 spec.Value, acc.2) else acc
    | none => acc

/-- The docker half of the fallback loop body of buildEnvMaps (lines
233-246): fill a literal docker value, or, with no docker-usable spec at
all, copy the already-resolved local value. -/
def fillDocker (acc : EnvMap × EnvMap) (p : String × Mapping) : EnvMap × EnvMap :=
  if (acc.2.lookup p.1).isSome then acc
  else
    match p.2.GetValueSpec .EnvDocker with
    | some spec =>
      if spec.Typ == "literal" then (acc.1, upsert acc.2 p.1 spec.Value) else acc
    | none =>
      match acc.1.lookup p.1 with
      | some localVal => (acc.1, upsert acc.2 p.1 localVal)
      | none => acc

/-- The fallback loop body of buildEnvMaps (lines 222-247) for one mapping. -/
def buildEnvMapsStep (acc : EnvMap × EnvMap) (p : String × Mapping) : EnvMap × EnvMap :=
  fillDocker (fillLocalLiteral acc p) p

/-- buildEnvMaps from fetch.go: groups results per environment, then fills
literal fallbacks and copies the local value for keys with no
docker-specific spec. -/
def buildEnvMaps (results : List secretResult) (cfg : Config) : EnvMap × EnvMap :=
  cfg.Mappings.foldl buildEnvMapsStep (groupResults results)

/-! ### Environment-file synchronizer (internal/envwriter, provider.go)

Character-level cores work on List Char; the ASCII subset of Go's
unicode.IsSpace is modelled (the relevant file contents are ASCII). -/

/-- The whitespace set of strings.TrimSpace restricted to ASCII. -/
def isSpaceChar (c : Char) : Bool :=
  c = ' ' ∨ c = '\t' ∨ c = '\n' ∨ c = '\r' ∨ c = '\x0b' ∨ c = '\x0c'

/-- strings.TrimSpace on a character list. -/
def trimC (l : List Char) : List Char :=
  ((l.dropWhile isSpaceChar).reverse.dropWhile isSpaceChar).reverse

/-- Splitting file content at newline characters, strings.Split semantics
(bufio.Scanner additionally drops a final empty line, which the readers
below skip anyway). -/
def splitLinesC : List Char → List (List Char)
  | [] => [[]]
  | c :: rest =>
    if c = '\n' then [] :: splitLinesC rest
    else
      match splitLinesC rest with
      | [] => [[c]]
      | l :: ls => (c :: l) :: ls

/-- strings.SplitN(line, sep, 2): the part before the first separator and
the rest, or none when the separator does not occur. -/
def splitN2C (sep : Char) : List Char → Option (List Char × List Char)
  | [] => none
  | c :: rest =>
    if c = sep then some ([], rest)
    else (splitN2C sep rest).map (fun p => (c :: p.1, p.2))

/-- envLineRegex = ^([A-Z_][A-Z0-9_]*)= — the captured key of a line, when
the line starts with a key immediately followed by the equals sign. -/
def envLineKeyC (l : List Char) : Option (List Char) :=
  match l with
  | [] => none
  | c :: rest =>
    if envVarHeadChar c then
      match rest.dropWhile envVarTailChar with
      | d :: _ => if d = '=' then some (c :: rest.takeWhile envVarTailChar) else none
      | [] => none
    else none

/-- strings.ReplaceAll with a one-character pattern. -/
def replace1C (p : Char) (rep : List Char) : List Char → List Char
  | [] => []
  | c :: rest => (if c = p then rep else [c]) ++ replace1C p rep rest

/-- strings.ReplaceAll with a two-character pattern (left-to-right,
non-overlapping, resuming after each replacement). -/
def replace2C (p₁ p₂ : Char) (rep : List Char) : List Char → List Char
  | [] => []
  | [c] => [c]
  | c₁ :: c₂ :: rest =>
    if c₁ = p₁ ∧ c₂ = p₂ then rep ++ replace2C p₁ p₂ rep rest
    else c₁ :: replace2C p₁ p₂ rep (c₂ :: rest)

/-- The escape chain of quoteValue, in source order:
backslash, double quote, newline, carriage return. -/
def escapeC (v : List Char) : List Char :=
  replace1C '\r' ['\\', 'r']
    (replace1C '\n' ['\\', 'n']
      (replace1C '"' ['\\', '"']
        (replace1C '\\' ['\\', '\\'] v)))

/-- The unescape chain of loadEnvOverrides, in source order:
escaped quote, escaped newline, escaped carriage return, escaped backslash. -/
def unescapeC (v : List Char) : List Char :=
  replace2C '\\' '\\' ['\\']
    (replace2C '\\' 'r' ['\r']
      (replace2C '\\' 'n' ['\n']
        (replace2C '\\' '"' ['"'] v)))

/-- The character set of strings.ContainsAny in quoteValue: space, tab,
newline, carriage return, hash, double quote, single quote. -/
def quoteSpecialChar (c : Char) : Bool :=
  c = ' ' ∨ c = '\t' ∨ c = '\n' ∨ c = '\r' ∨ c = '#' ∨ c = '"' ∨ c = Char.ofNat 39

/-- quoteValue from provider.go on a character list. -/
def quoteValueC (v : List Char) : List Char :=
  if v.any quoteSpecialChar || trimC v ≠ v then
    '"' :: escapeC v ++ ['"']
  else v

/-- quoteValue from provider.go. -/
def quoteValue (value : String) : String := String.mk (quoteValueC value.data)

/-- One line of ReadKeyValues: trim, skip blank and comment lines, record a
matching key with an empty value (the source deliberately drops values). -/
def readKeyValuesLine (vars : EnvMap) (lineC : List Char) : EnvMap :=
  if trimC lineC = [] then vars
  else if (trimC lineC).headD ' ' = '#' then vars
  else
    match envLineKeyC (trimC lineC) with
    | some key => upsert vars (String.mk key) ""
    | none => vars

/-- ReadKeyValues from provider.go; none models a non-existent file. -/
def ReadKeyValues (content : Option String) : EnvMap :=
  match content with
  | none => []
  | some text => (splitLinesC text.data).foldl readKeyValuesLine []

/-- The first loop of MergeRetainUnknowns: copy all new vars into the
result map. -/
def copyVars (newVars : EnvMap) : EnvMap :=
  newVars.foldl (fun r p => upsert r p.1 p.2) []

/-- The retention step of MergeRetainUnknowns for one pre-existing entry:
keys not declared in the mappings and not already set are retained. -/
def mergeStep (mappings : List (String × Mapping)) (r : EnvMap)
    (p : String × String) : EnvMap :=
  if (mappings.lookup p.1).isNone then
    if (r.lookup p.1).isNone then upsert r p.1 p.2 else r
  else r

/-- MergeRetainUnknowns from provider.go: new values first (they always
win), then pre-existing keys not declared in the mappings and not already
present are retained with the value found in existingVars. -/
def MergeRetainUnknowns (newVars existingVars : EnvMap)
    (mappings : List (String × Mapping)) : EnvMap :=
  existingVars.foldl (mergeStep mappings) (copyVars newVars)

/-- Lexicographic order on character lists (byte order of sort.Strings,
which coincides with code-point order under UTF-8). -/
def listLeB : List Char → List Char → Bool
  | [], _ => true
  | _ :: _, [] => false
  | a :: as, b :: bs => if a = b then listLeB as bs else decide (a < b)

/-- sort.Strings comparison. -/
def strLeB (a b : String) : Bool := listLeB a.data b.data

/-- The sorted key slice of WriteEnvFile (sort.Strings over the map keys). -/
def sortedKeys (vars : EnvMap) : List String :=
  (keysOf vars).insertionSort (fun a b => strLeB a b = true)

/-- One output line of WriteEnvFile (without the final newline added at
write time). -/
def renderVarLine (key value : String) : String := key ++ "=" ++ quoteValue value

/-- The byte content written by WriteEnvFile: optional header plus one
KEY=value line per key in ascending order. -/
def writeEnvFileContent (vars : EnvMap) (header : String) : String :=
  let hdr := if header ≠ "" then header ++ "\n" else ""
  (sortedKeys vars).foldl
    (fun acc k => acc ++ renderVarLine k ((vars.lookup k).getD "") ++ "\n") hdr

/-- The per-file synchronization of writeEnvFiles (fetch.go lines 252-269):
read the existing file's keys, merge, render. The header is the parameter
WriteEnvFile receives. -/
def syncEnvFile (existing : Option String) (resolved : EnvMap)
    (mappings : List (String × Mapping)) (header : String) : String :=
  writeEnvFileContent (MergeRetainUnknowns resolved (ReadKeyValues existing) mappings) header

/-! ### Override-file reader (internal/cli/run.go, loadEnvOverrides) -/

/-- The quote-stripping and unescaping of one parsed override value:
a value wrapped in a double-quote pair is stripped and unescaped. -/
def stripAndUnescape (value : List Char) : List Char :=
  if value.length ≥ 2 ∧ value.headD ' ' = '"' ∧ value.getLastD ' ' = '"' then
    unescapeC (value.drop 1).dropLast
  else value

/-- One line of loadEnvOverrides: trim, skip blanks and comments, split at
the first equals sign, trim both parts, strip a surrounding double-quote
pair and unescape. -/
def loadEnvOverridesLine (acc : EnvMap) (lineC : List Char) : EnvMap :=
  if trimC lineC = [] then acc
  else if (trimC lineC).headD ' ' = '#' then acc
  else
    match splitN2C '=' (trimC lineC) with
    | none => acc
    | some (k, v) =>
      upsert acc (String.mk (trimC k)) (String.mk (stripAndUnescape (trimC v)))

/-- loadEnvOverrides from run.go. -/
def loadEnvOverrides (content : String) : EnvMap :=
  (splitLinesC content.data).foldl loadEnvOverridesLine []

/-! ### Filesystem model of WriteEnvFile (provider.go lines 149-197)

The observable filesystem state is the content at the target path and at
the temp path. WriteEnvFileSteps returns the sequence of states after each
I/O operation, for an oracle choosing the first failing operation. -/

/-- The I/O operations of WriteEnvFile that can fail. -/
inductive WriteStep where
  | createTemp
  | writeHeader
  | writeVar (i : Nat)
  | syncTemp
  | renameTemp
deriving DecidableEq, Repr

/-- Observable filesystem state: content at the target path and at the
temp path (none = file absent). -/
structure FileSys where
  target : Option String
  temp : Option String
deriving DecidableEq, Repr

/-- The successive temp-file contents of the per-variable write loop,
stopping early (with failure) when the oracle fails write number i. -/
def writeVarsContents (tmp : String) : List (String × String) → Option Nat → List String × Bool
  | [], _ => ([], true)
  | (k, v) :: rest, failIdx =>
    match failIdx with
    | some 0 => ([], false)
    | some (Nat.succ n) =>
      let tmp' := tmp ++ renderVarLine k v ++ "\n"
      let r := writeVarsContents tmp' rest (some n)
      (tmp' :: r.1, r.2)
    | none =>
      let tmp' := tmp ++ renderVarLine k v ++ "\n"
      let r := writeVarsContents tmp' rest none
      (tmp' :: r.1, r.2)

/-- The header bytes WriteEnvFile puts before the variable lines. -/
def writeHdr (header : String) : String :=
  if header ≠ "" then header ++ "\n" else ""

/-- The (key, value) write list of WriteEnvFile: sorted keys with their
map values. -/
def writeEntries (vars : EnvMap) : List (String × String) :=
  (sortedKeys vars).map (fun k => (k, (vars.lookup k).getD ""))

/-- The index of the failing variable write chosen by the oracle, if any. -/
def writeFailIdx (failAt : Option WriteStep) : Option Nat :=
  match failAt with
  | some (WriteStep.writeVar i) => some i
  | _ => none

/-- The filesystem states after temp creation, header write, each variable
write, and the closing operation (cleanup on failure, rename on success). -/
def traceOf (fs : FileSys) (hdr : String) (contents : List String)
    (lastSt : FileSys) : List FileSys :=
  ({ target := fs.target, temp := some "" } : FileSys)
    :: { target := fs.target, temp := some hdr }
    :: (contents.map (fun c => ({ target := fs.target, temp := some c } : FileSys))
        ++ [lastSt])

/-- WriteEnvFile as a state trace: create the temp file, write header and
variable lines into it, sync, then rename over the target. Every failure
(temp creation, any write, sync, rename) happens before the target is
touched; the deferred remove deletes the temp file. On success the rename
atomically installs the temp content as the target in a single state
change. -/
def WriteEnvFileSteps (fs : FileSys) (vars : EnvMap) (header : String)
    (failAt : Option WriteStep) : List FileSys × Bool :=
  if failAt = some WriteStep.createTemp then ([fs], false)
  else if failAt = some WriteStep.writeHeader then
    ([{ target := fs.target, temp := some "" }, { target := fs.target, temp := none }],
      false)
  else if (writeVarsContents (writeHdr header) (writeEntries vars) (writeFailIdx failAt)).2
        = false
      ∨ failAt = some WriteStep.syncTemp ∨ failAt = some WriteStep.renameTemp then
    (traceOf fs (writeHdr header)
      (writeVarsContents (writeHdr header) (writeEntries vars) (writeFailIdx failAt)).1
      { target := fs.target, temp := none }, false)
  else
    (traceOf fs (writeHdr header)
      (writeVarsContents (writeHdr header) (writeEntries vars) (writeFailIdx failAt)).1
      { target := some ((writeHdr header
          :: (writeVarsContents (writeHdr header) (writeEntries vars)
              (writeFailIdx failAt)).1).getLastD ""), temp := none }, true)

/-! ### Auxiliary predicates and views used by the statements -/

/-- Go maps have unique keys; association lists embedding them satisfy
this invariant. -/
def NodupKeys {β : Type} (m : List (String × β)) : Prop := (keysOf m).Nodup

/-- A line that both file readers skip: blank after trimming, or a comment. -/
def skippableLine (l : List Char) : Prop :=
  trimC l = [] ∨ (trimC l).headD ' ' = '#'

/-- A header block consisting only of skippable lines (the generated
header of writeEnvFiles is such a block). -/
def commentHeader (h : String) : Prop :=
  ∀ line ∈ splitLinesC h.data, skippableLine line

/-- The variable lines of the rendered env file, in output order. -/
def renderedLines (vars : EnvMap) : List String :=
  (sortedKeys vars).map (fun k => renderVarLine k ((vars.lookup k).getD ""))

/-- Concatenation of a list of strings. -/
def joinAll : List String → String
  | [] => ""
  | s :: rest => s ++ joinAll rest

/-- The cache a completed fetch pass produces when no hard error occurs:
one entry per Found secret, keyed by its identifier. -/
def cacheOf (store : SecretStore) (names : List String) : EnvMap :=
  names.filterMap (fun s =>
    match store s with
    | .Found v => some (s, v)
    | _ => none)

/-- The missing entries the fetch pass records for NotFound outcomes. -/
def missingOf (store : SecretStore) (names : List String) : List String :=
  (names.filter (fun s => store s == FetchOutcome.NotFound)).map
    (fun s => "secret: " ++ s)

/-- Per-character view of the quoteValue escape chain: what the four
sequential ReplaceAll passes produce for one input character. -/
def escChar (c : Char) : List Char :=
  if c = '\\' then ['\\', '\\']
  else if c = '"' then ['\\', '"']
  else if c = '\n' then ['\\', 'n']
  else if c = '\r' then ['\\', 'r']
  else [c]

/-- Per-character view of an escaped backslash-free value after the
escaped-quote unescape pass of loadEnvOverrides. -/
def escStage1 (c : Char) : List Char :=
  if c = '"' then ['"']
  else if c = '\n' then ['\\', 'n']
  else if c = '\r' then ['\\', 'r']
  else [c]

/-- Per-character view after the escaped-newline unescape pass. -/
def escStage2 (c : Char) : List Char :=
  if c = '\r' then ['\\', 'r']
  else [c]

/-! ## Lemmas: association-list maps -/

theorem keysOf_nil {β : Type} : keysOf ([] : List (String × β)) = [] := rfl

theorem keysOf_cons {β : Type} (p : String × β) (m : List (String × β)) :
    keysOf (p :: m) = p.1 :: keysOf m := rfl

theorem keysOf_append {β : Type} (m₁ m₂ : List (String × β)) :
    keysOf (m₁ ++ m₂) = keysOf m₁ ++ keysOf m₂ := by
  simp [keysOf]

theorem lookup_nil {β : Type} (k : String) :
    ([] : List (String × β)).lookup k = none := rfl

theorem lookup_cons_hit {β : Type} (k : String) (p : String × β)
    (rest : List (String × β)) (h : k = p.1) : (p :: rest).lookup k = some p.2 := by
  have e : (k == p.1) = true := by simp [h]
  simp [List.lookup, e]

theorem lookup_cons_miss {β : Type} (k : String) (p : String × β)
    (rest : List (String × β)) (h : ¬ k = p.1) :
    (p :: rest).lookup k = rest.lookup k := by
  have e : (k == p.1) = false := by simp [h]
  simp [List.lookup, e]

theorem lookup_upsert (m : EnvMap) (k v k' : String) :
    (upsert m k v).lookup k' = if k' = k then some v else m.lookup k' := by
  induction m with
  | nil =>
    by_cases h : k' = k
    · simp [upsert, h, lookup_cons_hit]
    · simp [upsert, h, lookup_cons_miss k' (k, v) [] h, lookup_nil]
  | cons p rest ih =>
    by_cases hp : p.1 = k
    · by_cases h : k' = k
      · simp [upsert, hp, h, lookup_cons_hit]
      · have h2 : ¬ k' = p.1 := by rw [hp]; exact h
        simp [upsert, hp, h, lookup_cons_miss k' (k, v) rest h,
          lookup_cons_miss k' p rest h2]
    · by_cases h : k' = p.1
      · have hk : ¬ k' = k := fun he => hp (by rw [← h, he])
        simp [upsert, hp, hk, lookup_cons_hit k' p _ h,
          lookup_cons_hit k' p rest h]
      · simp [upsert, hp, lookup_cons_miss k' p _ h, ih]

theorem lookup_upsert_self (m : EnvMap) (k v : String) :
    (upsert m k v).lookup k = some v := by
  simp [lookup_upsert]

theorem lookup_upsert_ne (m : EnvMap) (k v k' : String) (h : k' ≠ k) :
    (upsert m k v).lookup k' = m.lookup k' := by
  simp [lookup_upsert, h]

theorem keysOf_upsert (m : EnvMap) (k v : String) :
    keysOf (upsert m k v) = if k ∈ keysOf m then keysOf m else keysOf m ++ [k] := by
  induction m with
  | nil => simp [upsert, keysOf]
  | cons p rest ih =>
    by_cases hp : p.1 = k
    · have : k ∈ keysOf (p :: rest) := by rw [keysOf_cons, hp]; exact List.mem_cons_self _ _
      simp [upsert, hp, keysOf_cons, this]
    · have hne : ¬ k = p.1 := fun h => hp h.symm
      by_cases hm : k ∈ keysOf rest
      · simp only [upsert, if_neg hp, keysOf_cons, ih, if_pos hm]
        simp [List.mem_cons, hm]
      · simp only [upsert, if_neg hp, keysOf_cons, ih, if_neg hm]
        simp [List.mem_cons, hne, hm]

theorem lookup_eq_none_iff_not_mem_keys (m : EnvMap) (k : String) :
    m.lookup k = none ↔ k ∉ keysOf m := by
  induction m with
  | nil => simp [keysOf]
  | cons p rest ih =>
    by_cases h : k = p.1
    · simp [lookup_cons_hit k p rest h, keysOf_cons, h]
    · simp [lookup_cons_miss k p rest h, keysOf_cons, ih, List.mem_cons, h]

theorem lookup_isSome_iff_mem_keys (m : EnvMap) (k : String) :
    (m.lookup k).isSome ↔ k ∈ keysOf m := by
  rcases h : m.lookup k with _ | v
  · simpa [h] using (lookup_eq_none_iff_not_mem_keys m k).mp h
  · simp only [Option.isSome_some, true_iff]
    by_contra hk
    rw [(lookup_eq_none_iff_not_mem_keys m k).mpr hk] at h
    exact Option.noConfusion h

theorem mem_keysOf_cons {β : Type} (k : String) (p : String × β)
    (m : List (String × β)) :
    k ∈ keysOf (p :: m) ↔ k = p.1 ∨ k ∈ keysOf m := by
  rw [keysOf_cons, List.mem_cons]

theorem upsert_of_not_mem (m : EnvMap) (k v : String) (h : k ∉ keysOf m) :
    upsert m k v = m ++ [(k, v)] := by
  induction m with
  | nil => simp [upsert]
  | cons p rest ih =>
    have h1 : ¬ p.1 = k := fun he => h ((mem_keysOf_cons k p rest).mpr (Or.inl he.symm))
    have h2 : k ∉ keysOf rest := fun hm => h ((mem_keysOf_cons k p rest).mpr (Or.inr hm))
    simp [upsert, h1, ih h2]

theorem nodupKeys_upsert (m : EnvMap) (k v : String) (h : NodupKeys m) :
    NodupKeys (upsert m k v) := by
  unfold NodupKeys at *
  rw [keysOf_upsert]
  by_cases hm : k ∈ keysOf m
  · simp [hm, h]
  · simp only [if_neg hm]
    exact List.Nodup.append h (List.nodup_singleton k)
      (by intro a ha hb; rcases List.mem_singleton.mp hb with rfl; exact hm ha)

theorem lookup_append_left (m₁ m₂ : EnvMap) (k : String) (h : k ∈ keysOf m₁) :
    (m₁ ++ m₂).lookup k = m₁.lookup k := by
  induction m₁ with
  | nil => simp [keysOf] at h
  | cons p rest ih =>
    by_cases hp : k = p.1
    · rw [List.cons_append, lookup_cons_hit k p _ hp, lookup_cons_hit k p rest hp]
    · have : k ∈ keysOf rest := by
        rcases (mem_keysOf_cons k p rest).mp h with h' | h'
        · exact absurd h' hp
        · exact h'
      rw [List.cons_append, lookup_cons_miss k p _ hp, lookup_cons_miss k p rest hp,
        ih this]

theorem lookup_append_right (m₁ m₂ : EnvMap) (k : String) (h : k ∉ keysOf m₁) :
    (m₁ ++ m₂).lookup k = m₂.lookup k := by
  induction m₁ with
  | nil => simp
  | cons p rest ih =>
    have h1 : ¬ k = p.1 := fun he => h ((mem_keysOf_cons k p rest).mpr (Or.inl he))
    have h2 : k ∉ keysOf rest := fun hm => h ((mem_keysOf_cons k p rest).mpr (Or.inr hm))
    rw [List.cons_append, lookup_cons_miss k p _ h1, ih h2]

/-! ## Lemmas: validation rejects spec-less mappings (claim C3) -/

theorem globalSpec_none_iff (m : Mapping) :
    m.globalSpec = none ↔ ¬ (m.Typ ≠ "" ∧ m.Value ≠ "") := by
  unfold Mapping.globalSpec
  by_cases h : m.Typ ≠ "" ∧ m.Value ≠ "" <;> simp [h]

theorem validateMapping_rejects_empty (key : String) (m : Mapping)
    (hl : m.Local = none) (hd : m.Docker = none) (hg : m.globalSpec = none) :
    validateMapping key m ≠ .ok () := by
  have hg' : ¬ (m.Typ ≠ "" ∧ m.Value ≠ "") := (globalSpec_none_iff m).mp hg
  have hval : validateMappingHasValues key m ≠ .ok () := by
    unfold validateMappingHasValues
    have h1 : m.Local.isSome = false := by simp [hl]
    have h2 : m.Docker.isSome = false := by simp [hd]
    simp [h1, h2]
    intro ht
    by_contra hv
    exact hg' ⟨ht, hv⟩
  unfold validateMapping
  rcases hname : validateEnvironmentVarName key with e | u
  · simp [hname, Bind.bind, Except.bind]
  · rcases hvals : validateMappingHasValues key m with e | u
    · simp [hname, hvals, Bind.bind, Except.bind]
    · exact absurd hvals (by simpa using hval)

theorem forM_ne_ok {α : Type} (l : List α) (f : α → Except String Unit) (x : α)
    (hx : x ∈ l) (hfx : f x ≠ .ok ()) : l.forM f ≠ .ok () := by
  induction l with
  | nil => simp at hx
  | cons a rest ih =>
    rcases List.mem_cons.mp hx with heq | hmem
    · subst heq
      rcases hfa : f x with e | u
      · simp [List.forM_cons, hfa, Bind.bind, Except.bind]
      · cases u
        exact absurd hfa hfx
    · rcases hfa : f a with e | u
      · simp [List.forM_cons, hfa, Bind.bind, Except.bind]
      · simpa [List.forM_cons, hfa, Bind.bind, Except.bind] using ih hmem

theorem validateConfig_rejects (cfg : Config) (k : String) (m : Mapping)
    (hmem : (k, m) ∈ cfg.Mappings)
    (hl : m.Local = none) (hd : m.Docker = none) (hg : m.globalSpec = none) :
    validateConfig cfg ≠ .ok () := by
  unfold validateConfig
  by_cases h1 : cfg.KeyVaultName = ""
  · simp [h1, throw, throwThe, MonadExceptOf.throw]
  · by_cases h2 : cfg.Mappings = []
    · simp [h1, h2, throw, throwThe, MonadExceptOf.throw]
    · have := forM_ne_ok cfg.Mappings (fun p => validateMapping p.1 p.2) (k, m) hmem
        (validateMapping_rejects_empty k m hl hd hg)
      simpa [h1, h2] using this

/-- Claim C3: GetValueSpec returns the environment-specific spec when
present (local for Local, docker for Docker), else the global fallback
when present, else none; and a config containing a mapping with none of
the three specs is rejected by validation (hence before any resolution,
since Load validates before fetchSecrets runs). -/
theorem getValueSpec_fallback (m : Mapping) :
    (∀ s, m.Local = some s → m.GetValueSpec .EnvLocal = some s) ∧
    (∀ s, m.Docker = some s → m.GetValueSpec .EnvDocker = some s) ∧
    (m.Local = none → m.GetValueSpec .EnvLocal = m.globalSpec) ∧
    (m.Docker = none → m.GetValueSpec .EnvDocker = m.globalSpec) ∧
    (m.Local = none → m.Docker = none → m.globalSpec = none →
      ∀ env, m.GetValueSpec env = none) ∧
    (∀ (cfg : Config) (k : String), (k, m) ∈ cfg.Mappings →
      m.Local = none → m.Docker = none → m.globalSpec = none →
      validateConfig cfg ≠ .ok ()) := by
  refine ⟨?_, ?_, ?_, ?_, ?_, ?_⟩
  · intro s h
    simp [Mapping.GetValueSpec, h]
  · intro s h
    simp [Mapping.GetValueSpec, h]
  · intro h
    simp [Mapping.GetValueSpec, h]
  · intro h
    simp [Mapping.GetValueSpec, h]
  · intro hl hd hg env
    cases env <;> simp [Mapping.GetValueSpec, hl, hd, hg]
  · intro cfg k hmem hl hd hg
    exact validateConfig_rejects cfg k m hmem hl hd hg

/-- Witness for C3 at concrete mappings: a local spec wins for Local, a
global-only mapping falls back, and a spec-less mapping is rejected. -/
theorem getValueSpec_fallback_witness :
    Mapping.GetValueSpec ⟨some ⟨"keyvault", "l"⟩, none, "literal", "g"⟩ .EnvLocal
        = some ⟨"keyvault", "l"⟩ ∧
    Mapping.GetValueSpec ⟨none, none, "literal", "g"⟩ .EnvDocker
        = Mapping.globalSpec ⟨none, none, "literal", "g"⟩ ∧
    validateConfig ⟨"v", [("A", ⟨none, none, "", ""⟩)]⟩ ≠ .ok () :=
  ⟨(getValueSpec_fallback ⟨some ⟨"keyvault", "l"⟩, none, "literal", "g"⟩).1 _ rfl,
   (getValueSpec_fallback ⟨none, none, "literal", "g"⟩).2.2.2.1 rfl,
   (getValueSpec_fallback ⟨none, none, "", ""⟩).2.2.2.2.2
     ⟨"v", [("A", ⟨none, none, "", ""⟩)]⟩ "A" (by simp) rfl rfl (by decide)⟩

/-! ## Lemmas: deduplicated secret collection (claim C4) -/

theorem foldl_inv {α β : Type} (P : β → Prop) (f : β → α → β)
    (h : ∀ b a, P b → P (f b a)) :
    ∀ (l : List α) (b : β), P b → P (l.foldl f b) := by
  intro l
  induction l with
  | nil => intro b hb; exact hb
  | cons a rest ih => intro b hb; exact ih (f b a) (h b a hb)

theorem foldl_mem_mono {α β : Type} (f : List β → α → List β) (y : β)
    (h : ∀ b a, y ∈ b → y ∈ f b a) :
    ∀ (l : List α) (acc : List β), y ∈ acc → y ∈ l.foldl f acc :=
  foldl_inv (fun b => y ∈ b) f h

theorem insertUnique_nodup (l : List String) (x : String) (h : l.Nodup) :
    (insertUnique l x).Nodup := by
  unfold insertUnique
  by_cases hm : x ∈ l
  · simpa [hm] using h
  · simp only [if_neg hm]
    exact List.Nodup.append h (List.nodup_singleton x)
      (by intro a ha hb; rcases List.mem_singleton.mp hb with rfl; exact hm ha)

theorem mem_insertUnique_self (l : List String) (x : String) :
    x ∈ insertUnique l x := by
  unfold insertUnique
  by_cases hm : x ∈ l <;> simp [hm]

theorem mem_insertUnique_mono (l : List String) (x y : String) (h : y ∈ l) :
    y ∈ insertUnique l x := by
  unfold insertUnique
  by_cases hm : x ∈ l <;> simp [hm, h]

theorem optInsert_nodup (acc : List String) (o : Option ValueSpec)
    (h : acc.Nodup) : (optInsert acc o).Nodup := by
  rcases o with _ | s
  · exact h
  · unfold optInsert
    by_cases hk : (s.Typ == "keyvault") = true
    · simp only [hk, if_true]
      exact insertUnique_nodup acc s.Value h
    · simp only [if_neg hk]
      exact h

theorem mem_optInsert_mono (acc : List String) (o : Option ValueSpec)
    (y : String) (h : y ∈ acc) : y ∈ optInsert acc o := by
  rcases o with _ | s
  · exact h
  · unfold optInsert
    by_cases hk : (s.Typ == "keyvault") = true
    · simp only [hk, if_true]
      exact mem_insertUnique_mono acc s.Value y h
    · simp only [if_neg hk]
      exact h

theorem mem_optInsert_self (acc : List String) (sp : ValueSpec)
    (hkv : sp.Typ = "keyvault") : sp.Value ∈ optInsert acc (some sp) := by
  unfold optInsert
  have hk : (sp.Typ == "keyvault") = true := by simp [hkv]
  simp only [hk, if_true]
  exact mem_insertUnique_self acc sp.Value

theorem collectStep_nodup (acc : List String) (p : String × Mapping)
    (h : acc.Nodup) : (collectStep acc p).Nodup :=
  optInsert_nodup _ _ (optInsert_nodup _ _ h)

theorem collectStep_mono (acc : List String) (p : String × Mapping)
    (y : String) (h : y ∈ acc) : y ∈ collectStep acc p :=
  mem_optInsert_mono _ _ _ (mem_optInsert_mono _ _ _ h)

theorem collectSecrets_nodup (mappings : List (String × Mapping)) :
    (collectSecrets mappings).Nodup := by
  unfold collectSecrets
  exact foldl_inv (fun l => l.Nodup) collectStep collectStep_nodup mappings [] List.nodup_nil

theorem mem_collectStep (acc : List String) (p : String × Mapping)
    (env : Environment) (sp : ValueSpec)
    (hsp : p.2.GetValueSpec env = some sp) (hkv : sp.Typ = "keyvault") :
    sp.Value ∈ collectStep acc p := by
  unfold collectStep
  cases env with
  | EnvLocal =>
    rw [hsp]
    exact mem_optInsert_mono _ _ _ (mem_optInsert_self acc sp hkv)
  | EnvDocker =>
    rw [hsp]
    exact mem_optInsert_self _ sp hkv

theorem mem_collectSecrets (mappings : List (String × Mapping)) (k : String)
    (m : Mapping) (env : Environment) (sp : ValueSpec)
    (hmem : (k, m) ∈ mappings) (hsp : m.GetValueSpec env = some sp)
    (hkv : sp.Typ = "keyvault") :
    sp.Value ∈ collectSecrets mappings := by
  unfold collectSecrets
  revert hmem
  generalize hacc : ([] : List String) = acc
  clear hacc
  induction mappings generalizing acc with
  | nil => intro h; simp at h
  | cons q rest ih =>
    intro hmem
    rcases List.mem_cons.mp hmem with heq | hmem2
    · rw [List.foldl_cons]
      apply foldl_mem_mono collectStep _ (fun b a hb => collectStep_mono b a _ hb)
      have hq : q.2 = m := by rw [← heq]
      exact mem_collectStep acc q env sp (hq ▸ hsp) hkv
    · rw [List.foldl_cons]
      exact ih _ hmem2

/-- Claim C4: when two distinct environment variables reference the same
Key Vault secret identifier (in either environment), that identifier
occurs exactly once in the deduplicated fetch list collectSecrets, over
which the fetch loop of fetchSecrets issues exactly one GetSecret task per
element — so the store lookup runs once for the identifier. -/
theorem fetchSecrets_dedup (mappings : List (String × Mapping)) (s : String)
    (k₁ k₂ : String) (m₁ m₂ : Mapping) (env₁ env₂ : Environment)
    (sp₁ sp₂ : ValueSpec)
    (h1 : (k₁, m₁) ∈ mappings) (h2 : (k₂, m₂) ∈ mappings) (hne : k₁ ≠ k₂)
    (hs1 : m₁.GetValueSpec env₁ = some sp₁) (hk1 : sp₁.Typ = "keyvault")
    (hv1 : sp₁.Value = s)
    (hs2 : m₂.GetValueSpec env₂ = some sp₂) (hk2 : sp₂.Typ = "keyvault")
    (hv2 : sp₂.Value = s) :
    (collectSecrets mappings).count s = 1 :=
  List.count_eq_one_of_mem (collectSecrets_nodup mappings)
    (hv1 ▸ mem_collectSecrets mappings k₁ m₁ env₁ sp₁ h1 hs1 hk1)

/-- Witness for C4: two env vars sharing one secret yield a single fetch. -/
theorem fetchSecrets_dedup_witness :
    (collectSecrets [("A", ⟨some ⟨"keyvault", "s"⟩, none, "", ""⟩),
                     ("B", ⟨some ⟨"keyvault", "s"⟩, none, "", ""⟩)]).count "s" = 1 :=
  fetchSecrets_dedup _ "s" "A" "B"
    ⟨some ⟨"keyvault", "s"⟩, none, "", ""⟩ ⟨some ⟨"keyvault", "s"⟩, none, "", ""⟩
    .EnvLocal .EnvLocal ⟨"keyvault", "s"⟩ ⟨"keyvault", "s"⟩
    (by simp) (by simp) (by decide) rfl rfl rfl rfl rfl rfl

/-! ## Lemmas: the fetch pass (claims C2, C8) -/

theorem runFetchesFrom_ok (store : SecretStore) (names : List String) :
    ∀ (cache : EnvMap) (missing : List String),
    (∀ s ∈ names, ∀ e, store s ≠ .HardError e) →
    names.Nodup →
    (∀ s ∈ names, s ∉ keysOf cache) →
    runFetchesFrom store cache missing names
      = .ok (cache ++ cacheOf store names, missing ++ missingOf store names) := by
  induction names with
  | nil =>
    intro cache missing _ _ _
    simp [runFetchesFrom, cacheOf, missingOf, pure, Except.pure]
  | cons n rest ih =>
    intro cache missing hnh hnd hfresh
    have hnh' : ∀ s ∈ rest, ∀ e, store s ≠ .HardError e :=
      fun s hs => hnh s (List.mem_cons_of_mem n hs)
    have hnd' : rest.Nodup := (List.nodup_cons.mp hnd).2
    have hnmem : n ∉ rest := (List.nodup_cons.mp hnd).1
    rcases hsn : store n with v | _ | e
    · have hup : upsert cache n v = cache ++ [(n, v)] :=
        upsert_of_not_mem cache n v (hfresh n (List.mem_cons_self n rest))
      have hfresh' : ∀ s ∈ rest, s ∉ keysOf (cache ++ [(n, v)]) := by
        intro s hs hk
        rw [keysOf_append] at hk
        rcases List.mem_append.mp hk with hk | hk
        · exact hfresh s (List.mem_cons_of_mem n hs) hk
        · rcases List.mem_singleton.mp hk with rfl
          exact hnmem hs
      have hstep : runFetchesFrom store cache missing (n :: rest)
          = runFetchesFrom store (cache ++ [(n, v)]) missing rest := by
        simp [runFetchesFrom, List.foldlM_cons, fetchKeyVaultSecret, hsn,
          Bind.bind, Except.bind, hup]
      have hc : cacheOf store (n :: rest) = (n, v) :: cacheOf store rest := by
        simp [cacheOf, List.filterMap_cons, hsn]
      have hm : missingOf store (n :: rest) = missingOf store rest := by
        simp [missingOf, List.filter_cons, hsn]
      rw [hstep, ih (cache ++ [(n, v)]) missing hnh' hnd' hfresh', hc, hm]
      simp [List.append_assoc]
    · have hstep : runFetchesFrom store cache missing (n :: rest)
          = runFetchesFrom store cache (missing ++ ["secret: " ++ n]) rest := by
        simp [runFetchesFrom, List.foldlM_cons, fetchKeyVaultSecret, hsn,
          Bind.bind, Except.bind]
      have hc : cacheOf store (n :: rest) = cacheOf store rest := by
        simp [cacheOf, List.filterMap_cons, hsn]
      have hm : missingOf store (n :: rest) = ("secret: " ++ n) :: missingOf store rest := by
        simp [missingOf, List.filter_cons, hsn]
      rw [hstep, ih cache (missing ++ ["secret: " ++ n]) hnh' hnd'
        (fun s hs => hfresh s (List.mem_cons_of_mem n hs)), hc, hm]
      simp [List.append_assoc]
    · exact absurd hsn (by simpa using hnh n (List.mem_cons_self n rest) e)

theorem runFetchesFrom_hard (store : SecretStore) (names : List String) :
    ∀ (cache : EnvMap) (missing : List String),
    (∃ s ∈ names, ∃ e, store s = .HardError e) →
    ∃ s e, s ∈ names ∧ store s = .HardError e ∧
      runFetchesFrom store cache missing names
        = .error ("failed to get secret " ++ s ++ ": " ++ e) := by
  induction names with
  | nil =>
    intro _ _ hh
    simp at hh
  | cons n rest ih =>
    intro cache missing hh
    rcases hsn : store n with v | _ | e
    · have hh' : ∃ s ∈ rest, ∃ e, store s = .HardError e := by
        rcases hh with ⟨s, hs, e, he⟩
        rcases List.mem_cons.mp hs with rfl | hs'
        · rw [hsn] at he; exact absurd he (by simp)
        · exact ⟨s, hs', e, he⟩
      rcases ih (upsert cache n v) missing hh' with ⟨s, e, hs, he, hrun⟩
      refine ⟨s, e, List.mem_cons_of_mem n hs, he, ?_⟩
      simpa [runFetchesFrom, List.foldlM_cons, fetchKeyVaultSecret, hsn,
        Bind.bind, Except.bind] using hrun
    · have hh' : ∃ s ∈ rest, ∃ e, store s = .HardError e := by
        rcases hh with ⟨s, hs, e, he⟩
        rcases List.mem_cons.mp hs with rfl | hs'
        · rw [hsn] at he; exact absurd he (by simp)
        · exact ⟨s, hs', e, he⟩
      rcases ih cache (missing ++ ["secret: " ++ n]) hh' with ⟨s, e, hs, he, hrun⟩
      refine ⟨s, e, List.mem_cons_of_mem n hs, he, ?_⟩
      simpa [runFetchesFrom, List.foldlM_cons, fetchKeyVaultSecret, hsn,
        Bind.bind, Except.bind] using hrun
    · refine ⟨n, e, List.mem_cons_self n rest, hsn, ?_⟩
      simp [runFetchesFrom, List.foldlM_cons, fetchKeyVaultSecret, hsn,
        Bind.bind, Except.bind]

theorem runFetches_ok (store : SecretStore) (names : List String)
    (hnh : ∀ s ∈ names, ∀ e, store s ≠ .HardError e) (hnd : names.Nodup) :
    runFetches store names = .ok (cacheOf store names, missingOf store names) := by
  have := runFetchesFrom_ok store names [] [] hnh hnd (by simp [keysOf])
  simpa [runFetches] using this

theorem lookup_cacheOf (store : SecretStore) (names : List String) (s : String) :
    (cacheOf store names).lookup s =
      if s ∈ names then
        (match store s with
          | .Found v => some v
          | _ => none)
      else none := by
  induction names with
  | nil => simp [cacheOf]
  | cons n rest ih =>
    by_cases hsn : s = n
    · subst hsn
      rcases hstore : store s with v | _ | e
      · simp [cacheOf, List.filterMap_cons, hstore, lookup_cons_hit s (s, v) _ rfl]
      · simp only [cacheOf, List.filterMap_cons, hstore] at *
        rw [ih]
        simp [hstore]
      · simp only [cacheOf, List.filterMap_cons, hstore] at *
        rw [ih]
        simp [hstore]
    · rcases hstore : store n with v | _ | e
      · simp only [cacheOf, List.filterMap_cons, hstore] at *
        rw [lookup_cons_miss s (n, v) _ hsn, ih]
        simp [List.mem_cons, hsn]
      · simp only [cacheOf, List.filterMap_cons, hstore] at *
        rw [ih]
        simp [List.mem_cons, hsn]
      · simp only [cacheOf, List.filterMap_cons, hstore] at *
        rw [ih]
        simp [List.mem_cons, hsn]

theorem mem_missingOf (store : SecretStore) (names : List String) (s : String)
    (hs : s ∈ names) (hnf : store s = .NotFound) :
    ("secret: " ++ s) ∈ missingOf store names := by
  unfold missingOf
  exact List.mem_map_of_mem _ (List.mem_filter.mpr ⟨hs, by simp [hnf]⟩)

theorem processResultSpec_congr (c₁ c₂ : EnvMap)
    (h : ∀ k, c₁.lookup k = c₂.lookup k) (envKey label : String)
    (env : Environment) (o : Option ValueSpec)
    (acc : List secretResult × List String) :
    processResultSpec c₁ envKey label env o acc
      = processResultSpec c₂ envKey label env o acc := by
  unfold processResultSpec
  simp only [h]

theorem buildResults_congr (c₁ c₂ : EnvMap)
    (h : ∀ k, c₁.lookup k = c₂.lookup k) (mappings : List (String × Mapping))
    (missing0 : List String) :
    buildResults c₁ mappings missing0 = buildResults c₂ mappings missing0 := by
  unfold buildResults
  have hstep : ∀ acc p, buildResultsStep c₁ acc p = buildResultsStep c₂ acc p := by
    intro acc p
    unfold buildResultsStep
    rw [processResultSpec_congr c₁ c₂ h, processResultSpec_congr c₁ c₂ h]
  generalize (([], missing0) : List secretResult × List String) = acc
  induction mappings generalizing acc with
  | nil => rfl
  | cons q rest ih => rw [List.foldl_cons, List.foldl_cons, hstep, ih]

theorem processResultSpec_mono_fst (cache : EnvMap) (envKey label : String)
    (env : Environment) (o : Option ValueSpec)
    (acc : List secretResult × List String) (r : secretResult) (h : r ∈ acc.1) :
    r ∈ (processResultSpec cache envKey label env o acc).1 := by
  unfold processResultSpec
  rcases o with _ | spec
  · exact h
  · by_cases hk : (spec.Typ == "keyvault") = true
    · simp only [hk, if_true]
      rcases hc : cache.lookup spec.Value with _ | v
      · exact h
      · exact List.mem_append_left _ h
    · simp only [if_neg hk]
      exact List.mem_append_left _ h

theorem processResultSpec_mono_snd (cache : EnvMap) (envKey label : String)
    (env : Environment) (o : Option ValueSpec)
    (acc : List secretResult × List String) (x : String) (h : x ∈ acc.2) :
    x ∈ (processResultSpec cache envKey label env o acc).2 := by
  unfold processResultSpec
  rcases o with _ | spec
  · exact h
  · by_cases hk : (spec.Typ == "keyvault") = true
    · simp only [hk, if_true]
      rcases hc : cache.lookup spec.Value with _ | v
      · exact List.mem_append_left _ h
      · exact h
    · simp only [if_neg hk]
      exact h

theorem processResultSpec_emits (cache : EnvMap) (envKey label : String)
    (env : Environment) (sp : ValueSpec)
    (acc : List secretResult × List String) (v : String)
    (hkv : sp.Typ = "keyvault") (hc : cache.lookup sp.Value = some v) :
    (⟨envKey, v, env⟩ : secretResult)
      ∈ (processResultSpec cache envKey label env (some sp) acc).1 := by
  unfold processResultSpec
  have hk : (sp.Typ == "keyvault") = true := by simp [hkv]
  simp only [hk, if_true, hc]
  exact List.mem_append_right _ (List.mem_singleton.mpr rfl)

theorem buildResultsStep_mono_fst (cache : EnvMap)
    (acc : List secretResult × List String) (p : String × Mapping)
    (r : secretResult) (h : r ∈ acc.1) : r ∈ (buildResultsStep cache acc p).1 :=
  processResultSpec_mono_fst _ _ _ _ _ _ _
    (processResultSpec_mono_fst _ _ _ _ _ _ _ h)

theorem buildResultsStep_mono_snd (cache : EnvMap)
    (acc : List secretResult × List String) (p : String × Mapping)
    (x : String) (h : x ∈ acc.2) : x ∈ (buildResultsStep cache acc p).2 :=
  processResultSpec_mono_snd _ _ _ _ _ _ _
    (processResultSpec_mono_snd _ _ _ _ _ _ _ h)

theorem buildResultsStep_emits (cache : EnvMap)
    (acc : List secretResult × List String) (p : String × Mapping)
    (env : Environment) (sp : ValueSpec) (v : String)
    (hsp : p.2.GetValueSpec env = some sp) (hkv : sp.Typ = "keyvault")
    (hc : cache.lookup sp.Value = some v) :
    (⟨p.1, v, env⟩ : secretResult) ∈ (buildResultsStep cache acc p).1 := by
  unfold buildResultsStep
  cases env with
  | EnvLocal =>
    rw [hsp]
    exact processResultSpec_mono_fst _ _ _ _ _ _ _
      (processResultSpec_emits cache p.1 _ .EnvLocal sp acc v hkv hc)
  | EnvDocker =>
    rw [hsp]
    exact processResultSpec_emits cache p.1 _ .EnvDocker sp _ v hkv hc

theorem mem_buildResults (cache : EnvMap) (mappings : List (String × Mapping))
    (missing0 : List String) (envKey : String) (m : Mapping)
    (env : Environment) (sp : ValueSpec) (v : String)
    (hmem : (envKey, m) ∈ mappings) (hsp : m.GetValueSpec env = some sp)
    (hkv : sp.Typ = "keyvault") (hc : cache.lookup sp.Value = some v) :
    (⟨envKey, v, env⟩ : secretResult) ∈ (buildResults cache mappings missing0).1 := by
  unfold buildResults
  generalize hacc : (([], missing0) : List secretResult × List String) = acc
  clear hacc
  induction mappings generalizing acc with
  | nil => simp at hmem
  | cons q rest ih =>
    rcases List.mem_cons.mp hmem with heq | hmem2
    · rw [List.foldl_cons]
      apply foldl_inv (fun acc => (⟨envKey, v, env⟩ : secretResult) ∈ acc.1)
        (buildResultsStep cache) (fun b a hb => buildResultsStep_mono_fst cache b a _ hb)
      have hq1 : q.1 = envKey := by rw [← heq]
      have hq2 : q.2 = m := by rw [← heq]
      exact hq1 ▸ buildResultsStep_emits cache acc q env sp v (hq2 ▸ hsp) hkv hc
    · rw [List.foldl_cons]
      exact ih hmem2 _

theorem mem_buildResults_missing (cache : EnvMap)
    (mappings : List (String × Mapping)) (missing0 : List String) (x : String)
    (h : x ∈ missing0) : x ∈ (buildResults cache mappings missing0).2 := by
  unfold buildResults
  apply foldl_inv (fun acc => x ∈ acc.2) (buildResultsStep cache)
    (fun b a hb => buildResultsStep_mono_snd cache b a _ hb)
  exact h

/-- Claim C2: within one fetchSecrets run, a NotFound outcome for a secret
is soft — it is recorded in the missing list while every other secret with
a Found outcome still resolves into the results; any hard error makes the
whole call fail with that wrapped error and return no partial result
lists. -/
theorem fetchSecrets_partial_failure (store : SecretStore) (cfg : Config) :
    ((∀ s ∈ collectSecrets cfg.Mappings, ∀ e, store s ≠ .HardError e) →
      ∀ sA ∈ collectSecrets cfg.Mappings, store sA = .NotFound →
      ∃ results missing, fetchSecrets store cfg = .ok (results, missing) ∧
        ("secret: " ++ sA) ∈ missing ∧
        (∀ envKey m env sp v, (envKey, m) ∈ cfg.Mappings →
          m.GetValueSpec env = some sp → sp.Typ = "keyvault" →
          store sp.Value = .Found v →
          (⟨envKey, v, env⟩ : secretResult) ∈ results)) ∧
    ((∃ s ∈ collectSecrets cfg.Mappings, ∃ e, store s = .HardError e) →
      ∃ s e, s ∈ collectSecrets cfg.Mappings ∧ store s = .HardError e ∧
        fetchSecrets store cfg
          = .error ("failed to get secret " ++ s ++ ": " ++ e)) := by
  constructor
  · intro hnh sA hsA hnf
    have hrf := runFetches_ok store (collectSecrets cfg.Mappings) hnh
      (collectSecrets_nodup cfg.Mappings)
    refine ⟨(buildResults (cacheOf store (collectSecrets cfg.Mappings))
        cfg.Mappings (missingOf store (collectSecrets cfg.Mappings))).1,
      (buildResults (cacheOf store (collectSecrets cfg.Mappings))
        cfg.Mappings (missingOf store (collectSecrets cfg.Mappings))).2, ?_, ?_, ?_⟩
    · simp [fetchSecrets, fetchSecretsOrdered, hrf, Bind.bind, Except.bind]
    · exact mem_buildResults_missing _ _ _ _
        (mem_missingOf store _ sA hsA hnf)
    · intro envKey m env sp v hmem hsp hkv hfound
      apply mem_buildResults _ _ _ envKey m env sp v hmem hsp hkv
      rw [lookup_cacheOf]
      have : sp.Value ∈ collectSecrets cfg.Mappings :=
        mem_collectSecrets cfg.Mappings envKey m env sp hmem hsp hkv
      simp [this, hfound]
  · intro hh
    rcases runFetchesFrom_hard store (collectSecrets cfg.Mappings) [] [] hh
      with ⟨s, e, hs, he, hrun⟩
    refine ⟨s, e, hs, he, ?_⟩
    simp [fetchSecrets, fetchSecretsOrdered, runFetches, hrun, Bind.bind, Except.bind]

/-- Witness for C2 at a concrete store and config: secret s1 resolves,
secret s2 is NotFound yet recorded, and a hard-erroring store fails the
whole call. -/
theorem fetchSecrets_partial_failure_witness :
    (∃ results missing,
      fetchSecrets (fun s => if s = "s1" then .Found "v1" else .NotFound)
        ⟨"v", [("A", ⟨some ⟨"keyvault", "s1"⟩, none, "", ""⟩),
               ("B", ⟨some ⟨"keyvault", "s2"⟩, none, "", ""⟩)]⟩
        = .ok (results, missing) ∧
      ("secret: " ++ "s2") ∈ missing ∧
      (∀ envKey m env sp v,
        (envKey, m) ∈ [("A", (⟨some ⟨"keyvault", "s1"⟩, none, "", ""⟩ : Mapping)),
                       ("B", ⟨some ⟨"keyvault", "s2"⟩, none, "", ""⟩)] →
        m.GetValueSpec env = some sp → sp.Typ = "keyvault" →
        (if sp.Value = "s1" then FetchOutcome.Found "v1" else .NotFound) = .Found v →
        (⟨envKey, v, env⟩ : secretResult) ∈ results)) ∧
    (∃ s e, s ∈ collectSecrets [("A", (⟨some ⟨"keyvault", "s1"⟩, none, "", ""⟩ : Mapping))] ∧
      (fun _ => FetchOutcome.HardError "boom") s = .HardError e ∧
      fetchSecrets (fun _ => .HardError "boom")
        ⟨"v", [("A", ⟨some ⟨"keyvault", "s1"⟩, none, "", ""⟩)]⟩
        = .error ("failed to get secret " ++ s ++ ": " ++ e)) :=
  ⟨(fetchSecrets_partial_failure (fun s => if s = "s1" then .Found "v1" else .NotFound)
      ⟨"v", [("A", ⟨some ⟨"keyvault", "s1"⟩, none, "", ""⟩),
             ("B", ⟨some ⟨"keyvault", "s2"⟩, none, "", ""⟩)]⟩).1
    (by intro s _ e; by_cases h : s = "s1" <;> simp [h])
    "s2" (by decide) (by decide),
   (fetchSecrets_partial_failure (fun _ => .HardError "boom")
      ⟨"v", [("A", ⟨some ⟨"keyvault", "s1"⟩, none, "", ""⟩)]⟩).2
    ⟨"s1", by decide, "boom", rfl⟩⟩

/-! ## Lemmas: completion-order independence (claim C8) -/

theorem processResultSpec_fst_dep (cache : EnvMap) (envKey label : String)
    (env : Environment) (o : Option ValueSpec)
    (acc acc' : List secretResult × List String) (h : acc.1 = acc'.1) :
    (processResultSpec cache envKey label env o acc).1
      = (processResultSpec cache envKey label env o acc').1 := by
  unfold processResultSpec
  rcases o with _ | spec
  · exact h
  · by_cases hk : (spec.Typ == "keyvault") = true
    · simp only [hk, if_true]
      rcases hc : cache.lookup spec.Value with _ | v
      · exact h
      · simp [h]
    · simp only [if_neg hk]
      simp [h]

theorem buildResults_fst_missing0 (cache : EnvMap)
    (mappings : List (String × Mapping)) (m0 m0' : List String) :
    (buildResults cache mappings m0).1 = (buildResults cache mappings m0').1 := by
  unfold buildResults
  have key : ∀ (acc acc' : List secretResult × List String), acc.1 = acc'.1 →
      (mappings.foldl (buildResultsStep cache) acc).1
        = (mappings.foldl (buildResultsStep cache) acc').1 := by
    induction mappings with
    | nil => intro acc acc' h; exact h
    | cons q rest ih =>
      intro acc acc' h
      rw [List.foldl_cons, List.foldl_cons]
      apply ih
      unfold buildResultsStep
      exact processResultSpec_fst_dep _ _ _ _ _ _ _
        (processResultSpec_fst_dep _ _ _ _ _ _ _ h)
  exact key _ _ rfl

/-- Claim C8: the resolved env maps produced by fetchSecrets followed by
buildEnvMaps are identical for every completion order of the concurrent
secret fetches (any permutation of the deduplicated fetch list), given the
same config and store contents and no hard failure. -/
theorem resolution_order_independent (store : SecretStore) (cfg : Config)
    (order : List String)
    (hperm : order.Perm (collectSecrets cfg.Mappings))
    (hnh : ∀ s ∈ collectSecrets cfg.Mappings, ∀ e, store s ≠ .HardError e) :
    (fetchSecretsOrdered store cfg order).map (fun r => buildEnvMaps r.1 cfg)
      = (fetchSecrets store cfg).map (fun r => buildEnvMaps r.1 cfg) := by
  have hnh' : ∀ s ∈ order, ∀ e, store s ≠ .HardError e :=
    fun s hs => hnh s (hperm.mem_iff.mp hs)
  have hnd : (collectSecrets cfg.Mappings).Nodup := collectSecrets_nodup cfg.Mappings
  have hnd' : order.Nodup := hperm.nodup_iff.mpr hnd
  have h1 := runFetches_ok store order hnh' hnd'
  have h2 := runFetches_ok store (collectSecrets cfg.Mappings) hnh hnd
  have hcache : ∀ k, (cacheOf store order).lookup k
      = (cacheOf store (collectSecrets cfg.Mappings)).lookup k := by
    intro k
    rw [lookup_cacheOf, lookup_cacheOf]
    by_cases hk : k ∈ collectSecrets cfg.Mappings
    · simp [hk, hperm.mem_iff.mpr hk]
    · have hko : k ∉ order := fun h => hk (hperm.mem_iff.mp h)
      simp [hk, hko]
  have hres : (buildResults (cacheOf store order) cfg.Mappings (missingOf store order)).1
      = (buildResults (cacheOf store (collectSecrets cfg.Mappings)) cfg.Mappings
          (missingOf store (collectSecrets cfg.Mappings))).1 := by
    rw [buildResults_congr _ _ hcache]
    exact buildResults_fst_missing0 _ _ _ _
  simp only [fetchSecrets, fetchSecretsOrdered, h1, h2, Bind.bind, Except.bind,
    Except.map]
  rw [hres]

/-- Witness for C8: reversing the completion order of two secrets leaves
the final maps unchanged. -/
theorem resolution_order_independent_witness :
    (fetchSecretsOrdered (fun s => if s = "s1" then .Found "v1" else .Found "v2")
        ⟨"v", [("A", ⟨some ⟨"keyvault", "s1"⟩, none, "", ""⟩),
               ("B", ⟨some ⟨"keyvault", "s2"⟩, none, "", ""⟩)]⟩
        ["s2", "s1"]).map
      (fun r => buildEnvMaps r.1
        ⟨"v", [("A", ⟨some ⟨"keyvault", "s1"⟩, none, "", ""⟩),
               ("B", ⟨some ⟨"keyvault", "s2"⟩, none, "", ""⟩)]⟩)
    = (fetchSecrets (fun s => if s = "s1" then .Found "v1" else .Found "v2")
        ⟨"v", [("A", ⟨some ⟨"keyvault", "s1"⟩, none, "", ""⟩),
               ("B", ⟨some ⟨"keyvault", "s2"⟩, none, "", ""⟩)]⟩).map
      (fun r => buildEnvMaps r.1
        ⟨"v", [("A", ⟨some ⟨"keyvault", "s1"⟩, none, "", ""⟩),
               ("B", ⟨some ⟨"keyvault", "s2"⟩, none, "", ""⟩)]⟩) :=
  resolution_order_independent _ _ ["s2", "s1"] (by decide)
    (by intro s _ e; by_cases h : s = "s1" <;> simp [h])

/-! ## Lemmas: the buildEnvMaps docker fallback (claim C9) -/

theorem fillLocalLiteral_snd (acc : EnvMap × EnvMap) (p : String × Mapping) :
    (fillLocalLiteral acc p).2 = acc.2 := by
  unfold fillLocalLiteral
  by_cases h1 : (acc.1.lookup p.1).isSome
  · simp [h1]
  · simp only [if_neg h1]
    rcases p.2.GetValueSpec .EnvLocal with _ | spec
    · rfl
    · by_cases hk : (spec.Typ == "literal") = true <;> simp [hk]

theorem fillDocker_fst (acc : EnvMap × EnvMap) (p : String × Mapping) :
    (fillDocker acc p).1 = acc.1 := by
  unfold fillDocker
  by_cases h1 : (acc.2.lookup p.1).isSome
  · simp [h1]
  · simp only [if_neg h1]
    rcases p.2.GetValueSpec .EnvDocker with _ | spec
    · rcases acc.1.lookup p.1 with _ | lv <;> rfl
    · by_cases hk : (spec.Typ == "literal") = true <;> simp [hk]

theorem fillLocalLiteral_lookup_ne (acc : EnvMap × EnvMap) (p : String × Mapping)
    (k : String) (h : k ≠ p.1) :
    (fillLocalLiteral acc p).1.lookup k = acc.1.lookup k := by
  unfold fillLocalLiteral
  by_cases h1 : (acc.1.lookup p.1).isSome
  · simp [h1]
  · simp only [if_neg h1]
    rcases p.2.GetValueSpec .EnvLocal with _ | spec
    · rfl
    · by_cases hk : (spec.Typ == "literal") = true <;>
        simp [hk, lookup_upsert_ne _ _ _ _ h]

theorem fillDocker_lookup_ne (acc : EnvMap × EnvMap) (p : String × Mapping)
    (k : String) (h : k ≠ p.1) :
    (fillDocker acc p).2.lookup k = acc.2.lookup k := by
  unfold fillDocker
  by_cases h1 : (acc.2.lookup p.1).isSome
  · simp [h1]
  · simp only [if_neg h1]
    rcases p.2.GetValueSpec .EnvDocker with _ | spec
    · rcases acc.1.lookup p.1 with _ | lv
      · rfl
      · simp [lookup_upsert_ne _ _ _ _ h]
    · by_cases hk : (spec.Typ == "literal") = true <;>
        simp [hk, lookup_upsert_ne _ _ _ _ h]

theorem buildEnvMapsStep_lookup_ne (acc : EnvMap × EnvMap) (p : String × Mapping)
    (k : String) (h : k ≠ p.1) :
    (buildEnvMapsStep acc p).1.lookup k = acc.1.lookup k ∧
    (buildEnvMapsStep acc p).2.lookup k = acc.2.lookup k := by
  unfold buildEnvMapsStep
  constructor
  · rw [fillDocker_fst, fillLocalLiteral_lookup_ne _ _ _ h]
  · rw [fillDocker_lookup_ne _ _ _ h, fillLocalLiteral_snd]

theorem foldl_buildEnvMapsStep_lookup_ne (ms : List (String × Mapping))
    (acc : EnvMap × EnvMap) (k : String) (h : ∀ p ∈ ms, p.1 ≠ k) :
    (ms.foldl buildEnvMapsStep acc).1.lookup k = acc.1.lookup k ∧
    (ms.foldl buildEnvMapsStep acc).2.lookup k = acc.2.lookup k := by
  induction ms generalizing acc with
  | nil => exact ⟨rfl, rfl⟩
  | cons q rest ih =>
    rw [List.foldl_cons]
    have hq : k ≠ q.1 := fun he => h q (List.mem_cons_self q rest) he.symm
    have step := buildEnvMapsStep_lookup_ne acc q k hq
    have := ih (buildEnvMapsStep acc q) (fun p hp => h p (List.mem_cons_of_mem q hp))
    exact ⟨this.1.trans step.1, this.2.trans step.2⟩

theorem groupResults_snd_none (results : List secretResult) (k : String)
    (h : ∀ r ∈ results, r.environment = .EnvDocker → r.key ≠ k) :
    (groupResults results).2.lookup k = none := by
  unfold groupResults
  have key : ∀ (acc : EnvMap × EnvMap), acc.2.lookup k = none →
      (results.foldl groupStep acc).2.lookup k = none := by
    induction results with
    | nil => intro acc hacc; exact hacc
    | cons r rest ih =>
      intro acc hacc
      rw [List.foldl_cons]
      have hrest : ∀ r' ∈ rest, r'.environment = .EnvDocker → r'.key ≠ k := by
        intro r' hr'
        exact h r' (List.mem_cons_of_mem r hr')
      have hstep : (groupStep acc r).2.lookup k = none := by
        unfold groupStep
        rcases henv : r.environment with _ | _
        · exact hacc
        · have hk : k ≠ r.key :=
            fun he => h r (List.mem_cons_self r rest) henv he.symm
          rw [lookup_upsert_ne _ _ _ _ hk]
          exact hacc
      have hmono : ∀ (rs : List secretResult) (b : EnvMap × EnvMap),
          b.2.lookup k = none →
          (∀ r' ∈ rs, r'.environment = .EnvDocker → r'.key ≠ k) →
          (rs.foldl groupStep b).2.lookup k = none := by
        intro rs
        induction rs with
        | nil => intro b hb _; exact hb
        | cons r' rest' ih' =>
          intro b hb hall
          rw [List.foldl_cons]
          apply ih'
          · unfold groupStep
            rcases henv : r'.environment with _ | _
            · exact hb
            · have hk : k ≠ r'.key :=
                fun he => hall r' (List.mem_cons_self r' rest') henv he.symm
              rw [lookup_upsert_ne _ _ _ _ hk]
              exact hb
          · intro r'' hr''
            exact hall r'' (List.mem_cons_of_mem r' hr'')
      exact hmono rest (groupStep acc r) hstep hrest
  exact key ([], []) rfl

/-- Claim C9: a mapping whose docker resolution is nil (no docker spec, no
global fallback) but whose key resolved to a local value is copied into the
docker map by buildEnvMaps: the key appears in docker.env with the local
value instead of being omitted. -/
theorem buildEnvMaps_docker_fallback (results : List secretResult) (cfg : Config)
    (envKey : String) (mapping : Mapping) (v : String)
    (hnd : NodupKeys cfg.Mappings)
    (hmem : (envKey, mapping) ∈ cfg.Mappings)
    (hdocker : mapping.GetValueSpec .EnvDocker = none)
    (hnores : ∀ r ∈ results, r.environment = .EnvDocker → r.key ≠ envKey)
    (hlocal : (buildEnvMaps results cfg).1.lookup envKey = some v) :
    (buildEnvMaps results cfg).2.lookup envKey = some v := by
  obtain ⟨pre, post, hsplit⟩ := List.append_of_mem hmem
  have hkeys : keysOf cfg.Mappings = keysOf pre ++ envKey :: keysOf post := by
    rw [hsplit, keysOf_append, keysOf_cons]
  have hnd' := hnd
  unfold NodupKeys at hnd'
  rw [hkeys] at hnd'
  have hnotpre : envKey ∉ keysOf pre := by
    intro hmem'
    have := (List.nodup_append.mp hnd').2.2
    exact this hmem' (List.mem_cons_self envKey (keysOf post))
  have hnotpost : envKey ∉ keysOf post :=
    (List.nodup_cons.mp (List.nodup_append.mp hnd').2.1).1
  have hprene : ∀ p ∈ pre, p.1 ≠ envKey := by
    intro p hp he
    exact hnotpre (he ▸ List.mem_map_of_mem Prod.fst hp)
  have hpostne : ∀ p ∈ post, p.1 ≠ envKey := by
    intro p hp he
    exact hnotpost (he ▸ List.mem_map_of_mem Prod.fst hp)
  unfold buildEnvMaps at *
  rw [hsplit] at hlocal ⊢
  rw [List.foldl_append, List.foldl_cons] at hlocal ⊢
  set mid := pre.foldl buildEnvMapsStep (groupResults results) with hmid
  set stepRes := buildEnvMapsStep mid (envKey, mapping) with hstepRes
  have hpost := foldl_buildEnvMapsStep_lookup_ne post stepRes envKey hpostne
  have hpre := foldl_buildEnvMapsStep_lookup_ne pre (groupResults results) envKey hprene
  rw [hpost.2]
  rw [hpost.1] at hlocal
  -- the docker side is still empty when this mapping's iteration runs
  have hmid2 : mid.2.lookup envKey = none := by
    rw [hmid, hpre.2]
    exact groupResults_snd_none results envKey hnores
  -- the local value seen by the iteration equals the final local value
  have hmaps := fillLocalLiteral_snd mid (envKey, mapping)
  have hfst := fillDocker_fst (fillLocalLiteral mid (envKey, mapping)) (envKey, mapping)
  have hmaps1 : (fillLocalLiteral mid (envKey, mapping)).1.lookup envKey = some v := by
    have : stepRes.1.lookup envKey = some v := hlocal
    rw [hstepRes] at this
    unfold buildEnvMapsStep at this
    rw [hfst] at this
    exact this
  have hmaps2 : (fillLocalLiteral mid (envKey, mapping)).2.lookup envKey = none := by
    rw [hmaps]
    exact hmid2
  rw [hstepRes]
  unfold buildEnvMapsStep fillDocker
  have hnotsome : ((fillLocalLiteral mid (envKey, mapping)).2.lookup envKey).isSome = false := by
    rw [hmaps2]
    rfl
  simp only [hnotsome, Bool.false_eq_true, if_false, hdocker, hmaps1]
  exact lookup_upsert_self _ _ _

/-- Witness for C9: a literal local-only mapping is copied into the docker
map. -/
theorem buildEnvMaps_docker_fallback_witness :
    (buildEnvMaps [⟨"A", "lv", .EnvLocal⟩]
      ⟨"v", [("A", ⟨some ⟨"literal", "lv"⟩, none, "", ""⟩)]⟩).2.lookup "A"
      = some "lv" :=
  buildEnvMaps_docker_fallback [⟨"A", "lv", .EnvLocal⟩]
    ⟨"v", [("A", ⟨some ⟨"literal", "lv"⟩, none, "", ""⟩)]⟩ "A"
    ⟨some ⟨"literal", "lv"⟩, none, "", ""⟩ "lv"
    (by unfold NodupKeys keysOf; decide) (by decide) (by decide) (by decide) (by decide)

/-! ## Lemmas: the env-file reader and merge (claims C10, C1, C5) -/

theorem copyVars_go (n : EnvMap) :
    ∀ acc, NodupKeys (acc ++ n) →
      n.foldl (fun r p => upsert r p.1 p.2) acc = acc ++ n := by
  induction n with
  | nil => intro acc _; simp
  | cons p rest ih =>
    intro acc h
    rw [List.foldl_cons]
    have hp : p.1 ∉ keysOf acc := by
      unfold NodupKeys at h
      rw [keysOf_append, keysOf_cons] at h
      intro hmem
      exact (List.nodup_append.mp h).2.2 hmem (List.mem_cons_self _ _)
    rw [upsert_of_not_mem acc p.1 p.2 hp]
    have hlist : acc ++ [(p.1, p.2)] = acc ++ [p] := by simp
    rw [hlist]
    have h' : NodupKeys ((acc ++ [p]) ++ rest) := by
      have : (acc ++ [p]) ++ rest = acc ++ p :: rest := by simp
      rw [this]
      exact h
    rw [ih (acc ++ [p]) h']
    simp

theorem copyVars_eq (n : EnvMap) (h : NodupKeys n) : copyVars n = n := by
  unfold copyVars
  have := copyVars_go n [] (by simpa using h)
  simpa using this

theorem mergeFold_eq (mappings : List (String × Mapping)) (e : EnvMap) :
    ∀ acc, NodupKeys e →
      e.foldl (mergeStep mappings) acc
        = acc ++ e.filter
            (fun p => (mappings.lookup p.1).isNone && (acc.lookup p.1).isNone) := by
  induction e with
  | nil => intro acc _; simp
  | cons p rest ih =>
    intro acc hnd
    have hpk : p.1 ∉ keysOf rest := by
      unfold NodupKeys at hnd
      rw [keysOf_cons] at hnd
      exact (List.nodup_cons.mp hnd).1
    have hnd' : NodupKeys rest := by
      unfold NodupKeys at *
      rw [keysOf_cons] at hnd
      exact (List.nodup_cons.mp hnd).2
    rw [List.foldl_cons]
    by_cases hm : (mappings.lookup p.1).isNone
    · by_cases ha : (acc.lookup p.1).isNone
      · have hnm : p.1 ∉ keysOf acc := by
          rw [← lookup_eq_none_iff_not_mem_keys]
          exact Option.isNone_iff_eq_none.mp ha
        have hstep : mergeStep mappings acc p = acc ++ [p] := by
          unfold mergeStep
          rw [if_pos hm, if_pos ha, upsert_of_not_mem acc p.1 p.2 hnm]
        rw [hstep, ih (acc ++ [p]) hnd']
        have hfilter : rest.filter
              (fun q => (mappings.lookup q.1).isNone && ((acc ++ [p]).lookup q.1).isNone)
            = rest.filter
              (fun q => (mappings.lookup q.1).isNone && (acc.lookup q.1).isNone) := by
          apply List.filter_congr
          intro q hq
          have hne : q.1 ≠ p.1 := fun he => hpk (he ▸ List.mem_map_of_mem Prod.fst hq)
          have heq : (acc ++ [p]).lookup q.1 = acc.lookup q.1 := by
            by_cases hqa : q.1 ∈ keysOf acc
            · exact lookup_append_left acc [p] q.1 hqa
            · rw [lookup_append_right acc [p] q.1 hqa,
                lookup_cons_miss q.1 p [] hne, lookup_nil,
                (lookup_eq_none_iff_not_mem_keys acc q.1).mpr hqa]
          rw [heq]
        rw [hfilter]
        have hpred : ((mappings.lookup p.1).isNone && (acc.lookup p.1).isNone) = true := by
          simp [hm, ha]
        simp [List.filter_cons, hpred]
      · have hstep : mergeStep mappings acc p = acc := by
          unfold mergeStep
          rw [if_pos hm, if_neg ha]
        have hpred : ((mappings.lookup p.1).isNone && (acc.lookup p.1).isNone) = false := by
          simp only [Bool.and_eq_false_iff]
          right
          simpa using ha
        rw [hstep, ih acc hnd']
        simp [List.filter_cons, hpred]
    · have hstep : mergeStep mappings acc p = acc := by
        unfold mergeStep
        rw [if_neg hm]
      have hpred : ((mappings.lookup p.1).isNone && (acc.lookup p.1).isNone) = false := by
        simp only [Bool.and_eq_false_iff]
        left
        simpa using hm
      rw [hstep, ih acc hnd']
      simp [List.filter_cons, hpred]

theorem merge_eq (n e : EnvMap) (mappings : List (String × Mapping))
    (hn : NodupKeys n) (he : NodupKeys e) :
    MergeRetainUnknowns n e mappings
      = n ++ e.filter
          (fun p => (mappings.lookup p.1).isNone && (n.lookup p.1).isNone) := by
  unfold MergeRetainUnknowns
  rw [copyVars_eq n hn]
  exact mergeFold_eq mappings e n he

theorem readKeyValuesLine_nodup (vars : EnvMap) (lineC : List Char)
    (h : NodupKeys vars) : NodupKeys (readKeyValuesLine vars lineC) := by
  unfold readKeyValuesLine
  by_cases h1 : trimC lineC = []
  · rw [if_pos h1]; exact h
  · rw [if_neg h1]
    by_cases h2 : (trimC lineC).headD ' ' = '#'
    · rw [if_pos h2]; exact h
    · rw [if_neg h2]
      rcases hE : envLineKeyC (trimC lineC) with _ | key
      · simp only [hE]; exact h
      · simp only [hE]; exact nodupKeys_upsert _ _ _ h

theorem readKeyValues_nodup (content : Option String) :
    NodupKeys (ReadKeyValues content) := by
  rcases content with _ | text
  · exact List.nodup_nil
  · unfold ReadKeyValues
    exact foldl_inv NodupKeys readKeyValuesLine
      (fun b a hb => readKeyValuesLine_nodup b a hb)
      (splitLinesC text.data) [] List.nodup_nil

theorem envLineKeyC_valid (l : List Char) (k : List Char)
    (h : envLineKeyC l = some k) : envVarRegexMatchC k = true := by
  rcases l with _ | ⟨c, rest⟩
  · exact absurd h (by simp [envLineKeyC])
  · simp only [envLineKeyC] at h
    by_cases hc : envVarHeadChar c = true
    · rw [if_pos hc] at h
      rcases hdrop : rest.dropWhile envVarTailChar with _ | ⟨d, rest'⟩
      · rw [hdrop] at h
        exact Option.noConfusion h
      · simp only [hdrop] at h
        by_cases hd : d = '='
        · rw [if_pos hd] at h
          have hk : k = c :: rest.takeWhile envVarTailChar := (Option.some.injEq _ _).mp h.symm
          subst hk
          simp only [envVarRegexMatchC, hc, Bool.true_and]
          rw [List.all_eq_true]
          intro x hx
          exact List.mem_takeWhile_imp hx
        · rw [if_neg hd] at h
          exact Option.noConfusion h
    · rw [if_neg hc] at h
      exact Option.noConfusion h

theorem readKeyValuesLine_keys (vars : EnvMap) (lineC : List Char) :
    ∀ k ∈ keysOf (readKeyValuesLine vars lineC),
      k ∈ keysOf vars ∨ envLineKeyC (trimC lineC) = some k.data := by
  intro k hk
  unfold readKeyValuesLine at hk
  by_cases h1 : trimC lineC = []
  · rw [if_pos h1] at hk; exact Or.inl hk
  · rw [if_neg h1] at hk
    by_cases h2 : (trimC lineC).headD ' ' = '#'
    · rw [if_pos h2] at hk; exact Or.inl hk
    · rw [if_neg h2] at hk
      rcases hkey : envLineKeyC (trimC lineC) with _ | key
      · simp only [hkey] at hk
        exact Or.inl hk
      · simp only [hkey] at hk
        rw [keysOf_upsert] at hk
        by_cases hmem : String.mk key ∈ keysOf vars
        · rw [if_pos hmem] at hk
          exact Or.inl hk
        · rw [if_neg hmem] at hk
          rcases List.mem_append.mp hk with hk | hk
          · exact Or.inl hk
          · rcases List.mem_singleton.mp hk with rfl
            exact Or.inr (by simp [hkey])

theorem readKeyValues_keys_from_lines (lines : List (List Char)) :
    ∀ (acc : EnvMap), ∀ k ∈ keysOf (lines.foldl readKeyValuesLine acc),
      k ∈ keysOf acc ∨ ∃ lineC ∈ lines, envLineKeyC (trimC lineC) = some k.data := by
  induction lines with
  | nil => intro acc k hk; exact Or.inl hk
  | cons l rest ih =>
    intro acc k hk
    rw [List.foldl_cons] at hk
    rcases ih (readKeyValuesLine acc l) k hk with hk' | ⟨lineC, hl, he⟩
    · rcases readKeyValuesLine_keys acc l k hk' with hk'' | he
      · exact Or.inl hk''
      · exact Or.inr ⟨l, List.mem_cons_self l rest, he⟩
    · exact Or.inr ⟨lineC, List.mem_cons_of_mem l hl, he⟩

theorem keysOf_filter_subset (e : EnvMap) (f : String × String → Bool)
    (k : String) (h : k ∈ keysOf (e.filter f)) : k ∈ keysOf e := by
  rcases List.mem_map.mp h with ⟨p, hp, hpk⟩
  exact hpk ▸ List.mem_map_of_mem Prod.fst (List.mem_filter.mp hp).1

/-- Claim C10: ReadKeyValues records a key only for lines matching the
anchored pattern key-then-equals (key in [A-Z_][A-Z0-9_]*, no whitespace
between key and the equals sign); a key produced by no line of the file —
for example one appearing only lowercase, or only with a space before the
equals sign — is not returned, and (unless it is among the resolved vars)
is absent from the merged map the synchronizer rewrites. -/
theorem readKeyValues_pattern_filter (content : String) (key : String)
    (newVars : EnvMap) (mappings : List (String × Mapping))
    (hkey : ∀ lineC ∈ splitLinesC content.data,
      envLineKeyC (trimC lineC) ≠ some key.data)
    (hnew : newVars.lookup key = none) (hnd : NodupKeys newVars) :
    (∀ k ∈ keysOf (ReadKeyValues (some content)), envVarRegexMatch k = true) ∧
    (∀ k ∈ keysOf (ReadKeyValues (some content)),
      ∃ lineC ∈ splitLinesC content.data, envLineKeyC (trimC lineC) = some k.data) ∧
    (ReadKeyValues (some content)).lookup key = none ∧
    (MergeRetainUnknowns newVars (ReadKeyValues (some content)) mappings).lookup key
      = none ∧
    key ∉ sortedKeys (MergeRetainUnknowns newVars (ReadKeyValues (some content)) mappings) := by
  have hfrom : ∀ k ∈ keysOf (ReadKeyValues (some content)),
      ∃ lineC ∈ splitLinesC content.data, envLineKeyC (trimC lineC) = some k.data := by
    intro k hk
    unfold ReadKeyValues at hk
    rcases readKeyValues_keys_from_lines (splitLinesC content.data) [] k hk with h0 | h0
    · simp [keysOf] at h0
    · exact h0
  have hvalid : ∀ k ∈ keysOf (ReadKeyValues (some content)), envVarRegexMatch k = true := by
    intro k hk
    rcases hfrom k hk with ⟨lineC, _, he⟩
    exact envLineKeyC_valid _ _ he
  have hnotmem : key ∉ keysOf (ReadKeyValues (some content)) := by
    intro hk
    rcases hfrom key hk with ⟨lineC, hl, he⟩
    exact hkey lineC hl he
  have hrlookup : (ReadKeyValues (some content)).lookup key = none :=
    (lookup_eq_none_iff_not_mem_keys _ key).mpr hnotmem
  have hmerge : (MergeRetainUnknowns newVars (ReadKeyValues (some content)) mappings).lookup key
      = none := by
    rw [merge_eq newVars _ mappings hnd (readKeyValues_nodup _)]
    have hnk : key ∉ keysOf newVars :=
      (lookup_eq_none_iff_not_mem_keys _ key).mp hnew
    rw [lookup_append_right _ _ _ hnk]
    apply (lookup_eq_none_iff_not_mem_keys _ key).mpr
    intro hk
    exact hnotmem (keysOf_filter_subset _ _ key hk)
  refine ⟨hvalid, hfrom, hrlookup, hmerge, ?_⟩
  intro hk
  unfold sortedKeys at hk
  have hk' : key ∈ keysOf (MergeRetainUnknowns newVars (ReadKeyValues (some content)) mappings) :=
    (List.perm_insertionSort _ _).mem_iff.mp hk
  exact absurd hk' ((lookup_eq_none_iff_not_mem_keys _ key).mp hmerge)

/-- Witness for C10 at a concrete file: the line with a space before the
equals sign contributes nothing, so FOO is absent from the rewritten keys
(and the lowercase foo line likewise records nothing). -/
theorem readKeyValues_pattern_filter_witness :
    (ReadKeyValues (some "foo=1\nFOO =2\nBAR=3\n")).lookup "FOO" = none ∧
    (MergeRetainUnknowns [("BAZ", "1")]
      (ReadKeyValues (some "foo=1\nFOO =2\nBAR=3\n")) []).lookup "FOO" = none ∧
    "FOO" ∉ sortedKeys (MergeRetainUnknowns [("BAZ", "1")]
      (ReadKeyValues (some "foo=1\nFOO =2\nBAR=3\n")) []) :=
  have h := readKeyValues_pattern_filter "foo=1\nFOO =2\nBAR=3\n" "FOO"
    [("BAZ", "1")] [] (by decide) (by decide) (by unfold NodupKeys keysOf; decide)
  ⟨h.2.2.1, h.2.2.2.1, h.2.2.2.2⟩

/-- Claim C1 (code bug, evaluated at the failing input): with an existing
file holding lines A=old and B=bold, a mapping set owning only A, and
resolved A=x, the synchronizer rewrites the file as "A=x\nB=\n". The
unmanaged key B survives, but its value is blanked rather than retained
byte-for-byte: ReadKeyValues stores an empty string for every key, and
MergeRetainUnknowns then writes that empty string back. -/
theorem syncEnvFile_blanks_unmanaged_value :
    syncEnvFile (some "A=old\nB=bold\n") [("A", "x")]
      [("A", ⟨none, none, "keyvault", "a-secret"⟩)] "" = "A=x\nB=\n" := by
  decide

/-! ## Lemmas: atomic write model (claim C7) -/

theorem getLastD_append_singleton {α : Type} (l : List α) (x d : α) :
    (l ++ [x]).getLastD d = x := by
  induction l generalizing d with
  | nil => rfl
  | cons a rest ih =>
    rw [List.cons_append, List.getLastD_cons]
    exact ih a

theorem getLastD_cons_irrel {α : Type} (a : α) (l : List α) (d d' : α) :
    (a :: l).getLastD d = (a :: l).getLastD d' := by
  rw [List.getLastD_cons, List.getLastD_cons]

theorem writeVarsContents_true (entries : List (String × String)) :
    ∀ tmp fi, (writeVarsContents tmp entries fi).2 = true →
      (tmp :: (writeVarsContents tmp entries fi).1).getLastD ""
        = entries.foldl (fun acc p => acc ++ renderVarLine p.1 p.2 ++ "\n") tmp := by
  induction entries with
  | nil => intro tmp fi _; rfl
  | cons e rest ih =>
    intro tmp fi htrue
    rcases e with ⟨k, v⟩
    rcases fi with _ | i
    · have hstruct : writeVarsContents tmp ((k, v) :: rest) none
          = ((tmp ++ renderVarLine k v ++ "\n")
              :: (writeVarsContents (tmp ++ renderVarLine k v ++ "\n") rest none).1,
            (writeVarsContents (tmp ++ renderVarLine k v ++ "\n") rest none).2) := by
        simp [writeVarsContents]
      rw [hstruct] at htrue ⊢
      have h := ih (tmp ++ renderVarLine k v ++ "\n") none htrue
      rw [List.getLastD_cons, List.foldl_cons,
        getLastD_cons_irrel _ _ tmp ""]
      exact h
    · rcases i with _ | n
      · have hfalse : (writeVarsContents tmp ((k, v) :: rest) (some 0)).2 = false := by
          simp [writeVarsContents]
        rw [hfalse] at htrue
        exact Bool.noConfusion htrue
      · have hstruct : writeVarsContents tmp ((k, v) :: rest) (some (Nat.succ n))
            = ((tmp ++ renderVarLine k v ++ "\n")
                :: (writeVarsContents (tmp ++ renderVarLine k v ++ "\n") rest (some n)).1,
              (writeVarsContents (tmp ++ renderVarLine k v ++ "\n") rest (some n)).2) := by
          simp [writeVarsContents]
        rw [hstruct] at htrue ⊢
        have h := ih (tmp ++ renderVarLine k v ++ "\n") (some n) htrue
        rw [List.getLastD_cons, List.foldl_cons,
          getLastD_cons_irrel _ _ tmp ""]
        exact h

theorem writeVarsContents_final (vars : EnvMap) (header : String) (fi : Option Nat)
    (h : (writeVarsContents (writeHdr header) (writeEntries vars) fi).2 = true) :
    ((writeHdr header)
        :: (writeVarsContents (writeHdr header) (writeEntries vars) fi).1).getLastD ""
      = writeEnvFileContent vars header := by
  rw [writeVarsContents_true _ _ _ h]
  unfold writeEntries
  rw [List.foldl_map]
  rfl

theorem traceOf_getLastD (fs : FileSys) (hdr : String) (contents : List String)
    (lastSt d : FileSys) : (traceOf fs hdr contents lastSt).getLastD d = lastSt := by
  unfold traceOf
  rw [List.getLastD_cons, List.getLastD_cons]
  rcases hcase : contents.map (fun c => ({ target := fs.target, temp := some c } : FileSys))
    with _ | ⟨a, l⟩
  · rfl
  · rw [List.cons_append, List.getLastD_cons]
    exact getLastD_append_singleton l _ a

theorem traceOf_mem (fs : FileSys) (hdr : String) (contents : List String)
    (lastSt st : FileSys) (h : st ∈ traceOf fs hdr contents lastSt) :
    st.target = fs.target ∨ st = lastSt := by
  unfold traceOf at h
  rcases List.mem_cons.mp h with rfl | h
  · exact Or.inl rfl
  · rcases List.mem_cons.mp h with rfl | h
    · exact Or.inl rfl
    · rcases List.mem_append.mp h with h | h
      · rcases List.mem_map.mp h with ⟨c, _, rfl⟩
        exact Or.inl rfl
      · rcases List.mem_singleton.mp h with rfl
        exact Or.inr rfl

/-- Claim C7: WriteEnvFile writes into a temp file in the target's
directory, syncs, then renames atomically. Along the whole operation the
target path only ever holds its old content or the complete new content;
on any failure (all of which occur before the rename) the final state has
the target unchanged and the temp file removed, and on success the target
holds exactly the rendered content. -/
theorem writeEnvFile_atomic (fs : FileSys) (vars : EnvMap) (header : String)
    (failAt : Option WriteStep) (htemp : fs.temp = none) :
    (∀ st ∈ (WriteEnvFileSteps fs vars header failAt).1,
      st.target = fs.target ∨ st.target = some (writeEnvFileContent vars header)) ∧
    ((WriteEnvFileSteps fs vars header failAt).2 = false →
      ((WriteEnvFileSteps fs vars header failAt).1.getLastD fs).target = fs.target ∧
      ((WriteEnvFileSteps fs vars header failAt).1.getLastD fs).temp = none) ∧
    ((WriteEnvFileSteps fs vars header failAt).2 = true →
      ((WriteEnvFileSteps fs vars header failAt).1.getLastD fs).target
        = some (writeEnvFileContent vars header) ∧
      ((WriteEnvFileSteps fs vars header failAt).1.getLastD fs).temp = none) := by
  unfold WriteEnvFileSteps
  by_cases h1 : failAt = some WriteStep.createTemp
  · rw [if_pos h1]
    refine ⟨?_, ?_, ?_⟩
    · intro st hst
      rcases List.mem_singleton.mp hst with rfl
      exact Or.inl rfl
    · intro _
      exact ⟨rfl, htemp⟩
    · intro hfalse
      exact absurd hfalse (by simp)
  · rw [if_neg h1]
    by_cases h2 : failAt = some WriteStep.writeHeader
    · rw [if_pos h2]
      refine ⟨?_, ?_, ?_⟩
      · intro st hst
        rcases List.mem_cons.mp hst with rfl | hst
        · exact Or.inl rfl
        · rcases List.mem_singleton.mp hst with rfl
          exact Or.inl rfl
      · intro _
        exact ⟨rfl, rfl⟩
      · intro hfalse
        exact absurd hfalse (by simp)
    · rw [if_neg h2]
      by_cases h3 : (writeVarsContents (writeHdr header) (writeEntries vars)
            (writeFailIdx failAt)).2 = false
          ∨ failAt = some WriteStep.syncTemp ∨ failAt = some WriteStep.renameTemp
      · rw [if_pos h3]
        refine ⟨?_, ?_, ?_⟩
        · intro st hst
          rcases traceOf_mem fs _ _ _ st hst with h | rfl
          · exact Or.inl h
          · exact Or.inl rfl
        · intro _
          rw [traceOf_getLastD]
          exact ⟨rfl, rfl⟩
        · intro hfalse
          exact absurd hfalse (by simp)
      · rw [if_neg h3]
        have hrtrue : (writeVarsContents (writeHdr header) (writeEntries vars)
            (writeFailIdx failAt)).2 = true := by
          rcases hres : (writeVarsContents (writeHdr header) (writeEntries vars)
              (writeFailIdx failAt)).2
          · exact absurd (Or.inl hres) h3
          · rfl
        have hcontent := writeVarsContents_final vars header (writeFailIdx failAt) hrtrue
        refine ⟨?_, ?_, ?_⟩
        · intro st hst
          rcases traceOf_mem fs _ _ _ st hst with h | rfl
          · exact Or.inl h
          · exact Or.inr (by rw [← hcontent])
        · intro hfalse
          exact absurd hfalse (by simp)
        · intro _
          rw [traceOf_getLastD]
          exact ⟨by rw [hcontent], rfl⟩

/-- Witness for C7: a failure at the sync step leaves the old target
content in place and no temp file, applied at a concrete filesystem. -/
theorem writeEnvFile_atomic_witness :
    ((WriteEnvFileSteps ⟨some "old", none⟩ [("A", "1")] "# h"
        (some WriteStep.syncTemp)).1.getLastD ⟨some "old", none⟩).target = some "old" ∧
    ((WriteEnvFileSteps ⟨some "old", none⟩ [("A", "1")] "# h"
        (some WriteStep.syncTemp)).1.getLastD ⟨some "old", none⟩).temp = none :=
  (writeEnvFile_atomic ⟨some "old", none⟩ [("A", "1")] "# h"
    (some WriteStep.syncTemp) rfl).2.1 (by decide)

/-! ## Lemmas: quoting and the override reader (claim C6) -/

theorem replace1C_eq_flatMap (p : Char) (rep : List Char) (l : List Char) :
    replace1C p rep l = l.flatMap (fun c => if c = p then rep else [c]) := by
  induction l with
  | nil => rfl
  | cons c rest ih => simp [replace1C, List.flatMap_cons, ih]

theorem escapeC_eq (v : List Char) : escapeC v = v.flatMap escChar := by
  unfold escapeC
  rw [replace1C_eq_flatMap, replace1C_eq_flatMap, replace1C_eq_flatMap,
    replace1C_eq_flatMap, List.flatMap_assoc, List.flatMap_assoc, List.flatMap_assoc]
  congr 1
  funext c
  by_cases h1 : c = '\\'
  · subst h1; decide
  · by_cases h2 : c = '"'
    · subst h2; decide
    · by_cases h3 : c = '\n'
      · subst h3; decide
      · by_cases h4 : c = '\r'
        · subst h4; decide
        · simp [h1, h2, h3, h4, escChar, List.flatMap_cons]

theorem escChar_no_newline (c : Char) : '\n' ∉ escChar c := by
  unfold escChar
  by_cases h1 : c = '\\'
  · simp [h1]
  · by_cases h2 : c = '"'
    · simp [h1, h2]
    · by_cases h3 : c = '\n'
      · simp [h1, h2, h3]
      · by_cases h4 : c = '\r'
        · simp [h1, h2, h3, h4]
        · simp [h1, h2, h3, h4]
          exact fun he => h3 he.symm

theorem escapeC_no_newline (v : List Char) : '\n' ∉ escapeC v := by
  rw [escapeC_eq]
  intro h
  rcases List.mem_flatMap.mp h with ⟨c, _, hc⟩
  exact escChar_no_newline c hc

theorem replace2C_cons_ne (p₁ p₂ : Char) (rep : List Char) (x : Char)
    (w : List Char) (h : x ≠ p₁) :
    replace2C p₁ p₂ rep (x :: w) = x :: replace2C p₁ p₂ rep w := by
  rcases w with _ | ⟨y, rest⟩
  · rfl
  · unfold replace2C
    rw [if_neg (fun hc => h hc.1), ← replace2C.eq_def]

theorem replace2C_cons_hit (p₁ p₂ : Char) (rep : List Char) (w : List Char) :
    replace2C p₁ p₂ rep (p₁ :: p₂ :: w) = rep ++ replace2C p₁ p₂ rep w := by
  unfold replace2C
  rw [if_pos ⟨rfl, rfl⟩, ← replace2C.eq_def]

theorem replace2C_cons_miss2 (p₁ p₂ : Char) (rep : List Char) (y : Char)
    (w : List Char) (h : y ≠ p₂) :
    replace2C p₁ p₂ rep (p₁ :: y :: w) = p₁ :: replace2C p₁ p₂ rep (y :: w) := by
  unfold replace2C
  rw [if_neg (fun hc => h hc.2), ← replace2C.eq_def]

theorem unescape_stage4 (v : List Char) (h : '\\' ∉ v) :
    replace2C '\\' '\\' ['\\'] v = v := by
  induction v with
  | nil => rfl
  | cons c rest ih =>
    have hc : c ≠ '\\' := fun he => h (he ▸ List.mem_cons_self c rest)
    rw [replace2C_cons_ne _ _ _ _ _ hc, ih (fun hm => h (List.mem_cons_of_mem c hm))]

theorem unescape_stage1 (v : List Char) (h : '\\' ∉ v) :
    replace2C '\\' '"' ['"'] (v.flatMap escChar) = v.flatMap escStage1 := by
  induction v with
  | nil => rfl
  | cons c rest ih =>
    have hc : c ≠ '\\' := fun he => h (he ▸ List.mem_cons_self c rest)
    have ih' := ih (fun hm => h (List.mem_cons_of_mem c hm))
    rw [List.flatMap_cons, List.flatMap_cons]
    by_cases h2 : c = '"'
    · subst h2
      have e1 : escChar '"' = ['\\', '"'] := by decide
      have e2 : escStage1 '"' = ['"'] := by decide
      rw [e1, e2, List.cons_append, List.cons_append, List.nil_append,
        replace2C_cons_hit, ih']
    · by_cases h3 : c = '\n'
      · subst h3
        have e1 : escChar '\n' = ['\\', 'n'] := by decide
        have e2 : escStage1 '\n' = ['\\', 'n'] := by decide
        rw [e1, e2, List.cons_append, List.cons_append, List.nil_append,
          replace2C_cons_miss2 _ _ _ 'n' _ (by decide),
          replace2C_cons_ne _ _ _ 'n' _ (by decide), ih']
        rfl
      · by_cases h4 : c = '\r'
        · subst h4
          have e1 : escChar '\r' = ['\\', 'r'] := by decide
          have e2 : escStage1 '\r' = ['\\', 'r'] := by decide
          rw [e1, e2, List.cons_append, List.cons_append, List.nil_append,
            replace2C_cons_miss2 _ _ _ 'r' _ (by decide),
            replace2C_cons_ne _ _ _ 'r' _ (by decide), ih']
          rfl
        · have e1 : escChar c = [c] := by
            unfold escChar
            rw [if_neg hc, if_neg h2, if_neg h3, if_neg h4]
          have e2 : escStage1 c = [c] := by
            unfold escStage1
            rw [if_neg h2, if_neg h3, if_neg h4]
          rw [e1, e2, List.cons_append, List.nil_append,
            replace2C_cons_ne _ _ _ c _ hc, ih']
          rfl

theorem unescape_stage2 (v : List Char) (h : '\\' ∉ v) :
    replace2C '\\' 'n' ['\n'] (v.flatMap escStage1) = v.flatMap escStage2 := by
  induction v with
  | nil => rfl
  | cons c rest ih =>
    have hc : c ≠ '\\' := fun he => h (he ▸ List.mem_cons_self c rest)
    have ih' := ih (fun hm => h (List.mem_cons_of_mem c hm))
    rw [List.flatMap_cons, List.flatMap_cons]
    by_cases h2 : c = '"'
    · subst h2
      have e1 : escStage1 '"' = ['"'] := by decide
      have e2 : escStage2 '"' = ['"'] := by decide
      rw [e1, e2, List.cons_append, List.nil_append,
        replace2C_cons_ne _ _ _ '"' _ (by decide), ih']
      rfl
    · by_cases h3 : c = '\n'
      · subst h3
        have e1 : escStage1 '\n' = ['\\', 'n'] := by decide
        have e2 : escStage2 '\n' = ['\n'] := by decide
        rw [e1, e2, List.cons_append, List.cons_append, List.nil_append,
          replace2C_cons_hit, ih']
      · by_cases h4 : c = '\r'
        · subst h4
          have e1 : escStage1 '\r' = ['\\', 'r'] := by decide
          have e2 : escStage2 '\r' = ['\\', 'r'] := by decide
          rw [e1, e2, List.cons_append, List.cons_append, List.nil_append,
            replace2C_cons_miss2 _ _ _ 'r' _ (by decide),
            replace2C_cons_ne _ _ _ 'r' _ (by decide), ih']
          rfl
        · have e1 : escStage1 c = [c] := by
            unfold escStage1
            rw [if_neg h2, if_neg h3, if_neg h4]
          have e2 : escStage2 c = [c] := by
            unfold escStage2
            rw [if_neg h4]
          rw [e1, e2, List.cons_append, List.nil_append,
            replace2C_cons_ne _ _ _ c _ hc, ih']
          rfl

theorem unescape_stage3 (v : List Char) (h : '\\' ∉ v) :
    replace2C '\\' 'r' ['\r'] (v.flatMap escStage2) = v := by
  induction v with
  | nil => rfl
  | cons c rest ih =>
    have hc : c ≠ '\\' := fun he => h (he ▸ List.mem_cons_self c rest)
    have ih' := ih (fun hm => h (List.mem_cons_of_mem c hm))
    rw [List.flatMap_cons]
    by_cases h4 : c = '\r'
    · subst h4
      have e1 : escStage2 '\r' = ['\\', 'r'] := by decide
      rw [e1, List.cons_append, List.cons_append, List.nil_append,
        replace2C_cons_hit, ih']
      rfl
    · have e1 : escStage2 c = [c] := by
        unfold escStage2
        rw [if_neg h4]
      rw [e1, List.cons_append, List.nil_append,
        replace2C_cons_ne _ _ _ c _ hc, ih']

theorem unescape_escape (v : List Char) (h : '\\' ∉ v) :
    unescapeC (escapeC v) = v := by
  unfold unescapeC
  rw [escapeC_eq, unescape_stage1 v h, unescape_stage2 v h, unescape_stage3 v h,
    unescape_stage4 v h]

theorem getLast?_mem' {α : Type} (l : List α) (a : α) (h : l.getLast? = some a) :
    a ∈ l := by
  rcases List.mem_getLast?_eq_getLast (show a ∈ l.getLast? by rw [h]; rfl)
    with ⟨hne, heq⟩
  rw [heq]
  exact List.getLast_mem hne

theorem envKeyChar_ne (c : Char)
    (h : envVarHeadChar c = true ∨ envVarTailChar c = true) (x : Char)
    (hx1 : envVarHeadChar x = false) (hx2 : envVarTailChar x = false) : c ≠ x := by
  intro he
  subst he
  rcases h with h | h
  · rw [hx1] at h; exact Bool.noConfusion h
  · rw [hx2] at h; exact Bool.noConfusion h

theorem envKeyChar_not_space (c : Char)
    (h : envVarHeadChar c = true ∨ envVarTailChar c = true) :
    isSpaceChar c = false := by
  rcases hsp : isSpaceChar c with _ | _
  · rfl
  · exfalso
    have hprop := of_decide_eq_true hsp
    rcases hprop with h1 | h1 | h1 | h1 | h1 | h1 <;>
      subst h1 <;> rcases h with h | h <;> exact absurd h (by decide)

theorem envKey_chars (k : List Char) (h : envVarRegexMatchC k = true) :
    ∀ c ∈ k, envVarHeadChar c = true ∨ envVarTailChar c = true := by
  rcases k with _ | ⟨c, rest⟩
  · exact absurd h (by decide)
  · have h' : envVarHeadChar c = true ∧ rest.all envVarTailChar = true := by
      simpa [envVarRegexMatchC] using h
    rcases h' with ⟨h1, h2⟩
    intro x hx
    rcases List.mem_cons.mp hx with rfl | hx
    · exact Or.inl h1
    · exact Or.inr ((List.all_eq_true.mp h2) x hx)

theorem envKey_ne_nil (k : List Char) (h : envVarRegexMatchC k = true) : k ≠ [] := by
  intro he
  rw [he] at h
  exact absurd h (by decide)

theorem dropWhile_cons_false {p : Char → Bool} (c : Char) (l : List Char)
    (h : p c = false) : (c :: l).dropWhile p = c :: l := by
  simp [List.dropWhile_cons, h]

theorem trimC_eq_self (l : List Char)
    (hh : ∀ a, l.head? = some a → isSpaceChar a = false)
    (hl : ∀ b, l.getLast? = some b → isSpaceChar b = false) : trimC l = l := by
  rcases l with _ | ⟨c, rest⟩
  · rfl
  · unfold trimC
    rw [dropWhile_cons_false c rest (hh c rfl)]
    rcases hrev : (c :: rest).reverse with _ | ⟨b, rl⟩
    · exact absurd hrev (by simp)
    · have hb : (c :: rest).getLast? = some b := by
        rw [← List.head?_reverse, hrev]
        rfl
      have h1 : List.dropWhile isSpaceChar (b :: rl) = b :: rl :=
        dropWhile_cons_false b rl (hl b hb)
      rw [h1, ← hrev, List.reverse_reverse]

theorem splitLinesC_append_newline (l r : List Char) (h : '\n' ∉ l) :
    splitLinesC (l ++ '\n' :: r) = l :: splitLinesC r := by
  induction l with
  | nil => simp [splitLinesC]
  | cons c rest ih =>
    have hc : c ≠ '\n' := fun he => h (he ▸ List.mem_cons_self c rest)
    have ih' := ih (fun hm => h (List.mem_cons_of_mem c hm))
    rw [List.cons_append, splitLinesC, if_neg hc, ih']

theorem splitN2C_append (k w : List Char) (h : '=' ∉ k) :
    splitN2C '=' (k ++ '=' :: w) = some (k, w) := by
  induction k with
  | nil => simp [splitN2C]
  | cons c rest ih =>
    have hc : c ≠ '=' := fun he => h (he ▸ List.mem_cons_self c rest)
    have ih' := ih (fun hm => h (List.mem_cons_of_mem c hm))
    rw [List.cons_append, splitN2C, if_neg hc, ih']
    rfl

theorem string_mk_data (s : String) : String.mk s.data = s := rfl

theorem any_quoteSpecial_of (v : List Char)
    (h : ' ' ∈ v ∨ '\n' ∈ v ∨ '#' ∈ v) : v.any quoteSpecialChar = true := by
  rcases h with h | h | h <;>
    exact List.any_eq_true.mpr ⟨_, h, by decide⟩

theorem quoteValueC_quoted (v : List Char) (hv : v.any quoteSpecialChar = true) :
    quoteValueC v = '"' :: escapeC v ++ ['"'] := by
  unfold quoteValueC
  rw [if_pos]
  rw [hv]
  rfl

theorem writeEnvFileContent_single (key value : String) :
    (writeEnvFileContent [(key, value)] "").data
      = key.data ++ '=' :: quoteValueC value.data ++ ['\n'] := by
  have hsk : sortedKeys [(key, value)] = [key] := rfl
  unfold writeEnvFileContent
  rw [hsk, List.foldl_cons, List.foldl_nil,
    lookup_cons_hit key (key, value) [] rfl]
  simp [renderVarLine, quoteValue, String.data_append]

theorem head?_mem' {α : Type} (l : List α) (a : α) (h : l.head? = some a) :
    a ∈ l := by
  rcases l with _ | ⟨c, rest⟩
  · exact Option.noConfusion h
  · have : c = a := by injection h
    subst this
    exact List.mem_cons_self c rest

theorem newline_not_in_line (key value : String)
    (hkey : envVarRegexMatch key = true) :
    '\n' ∉ key.data ++ '=' :: (('"' :: escapeC value.data) ++ ['"']) := by
  intro hmem
  rcases List.mem_append.mp hmem with h | h
  · exact envKeyChar_ne '\n'
      (envKey_chars key.data hkey '\n' h) '\n' (by decide) (by decide) rfl
  · rcases List.mem_cons.mp h with h | h
    · exact absurd h (by decide)
    · rcases List.mem_append.mp h with h | h
      · rcases List.mem_cons.mp h with h | h
        · exact absurd h (by decide)
        · exact escapeC_no_newline value.data h
      · rcases List.mem_singleton.mp h with h
        exact absurd h (by decide)

theorem line_restruct (key value : String) :
    key.data ++ '=' :: (('"' :: escapeC value.data) ++ ['"'])
      = (key.data ++ '=' :: ('"' :: escapeC value.data)) ++ ['"'] := by
  simp

theorem key_data_cons (key : String) (hkey : envVarRegexMatch key = true) :
    ∃ c r, key.data = c :: r := by
  rcases hk : key.data with _ | ⟨c, r⟩
  · exact absurd (by rw [envVarRegexMatch, hk] at hkey; exact hkey) (by decide)
  · exact ⟨c, r, rfl⟩

theorem trim_line_eq (key value : String) (hkey : envVarRegexMatch key = true) :
    trimC (key.data ++ '=' :: (('"' :: escapeC value.data) ++ ['"']))
      = key.data ++ '=' :: (('"' :: escapeC value.data) ++ ['"']) := by
  obtain ⟨kc, krest, hkdata⟩ := key_data_cons key hkey
  apply trimC_eq_self
  · intro a ha
    rw [hkdata, List.cons_append] at ha
    have : kc = a := by injection ha
    subst this
    exact envKeyChar_not_space kc
      (envKey_chars key.data hkey kc (hkdata ▸ List.mem_cons_self kc krest))
  · intro b hb
    rw [line_restruct, List.getLast?_concat] at hb
    have : '"' = b := by injection hb
    subst this
    decide

theorem eq_not_in_key (key : String) (hkey : envVarRegexMatch key = true) :
    '=' ∉ key.data := by
  intro h
  exact envKeyChar_ne '=' (envKey_chars key.data hkey '=' h) '='
    (by decide) (by decide) rfl

theorem trim_key_eq (key : String) (hkey : envVarRegexMatch key = true) :
    trimC key.data = key.data := by
  apply trimC_eq_self
  · intro a ha
    exact envKeyChar_not_space a
      (envKey_chars key.data hkey a (head?_mem' _ _ ha))
  · intro b hb
    exact envKeyChar_not_space b
      (envKey_chars key.data hkey b (getLast?_mem' _ _ hb))

theorem trim_quoted_eq (value : String) :
    trimC (('"' :: escapeC value.data) ++ ['"'])
      = ('"' :: escapeC value.data) ++ ['"'] := by
  apply trimC_eq_self
  · intro a ha
    rw [List.cons_append] at ha
    have : '"' = a := by injection ha
    subst this
    decide
  · intro b hb
    rw [List.getLast?_concat] at hb
    have : '"' = b := by injection hb
    subst this
    decide

theorem stripAndUnescape_quoted (value : String) (hnb : '\\' ∉ value.data) :
    stripAndUnescape (('"' :: escapeC value.data) ++ ['"']) = value.data := by
  unfold stripAndUnescape
  rw [if_pos]
  · have hdrop : ((('"' :: escapeC value.data) ++ ['"']).drop 1)
        = escapeC value.data ++ ['"'] := rfl
    rw [hdrop, List.dropLast_concat]
    exact unescape_escape value.data hnb
  · refine ⟨?_, rfl, ?_⟩
    · simp
    · rw [List.getLastD_eq_getLast?, List.getLast?_concat]
      rfl

theorem loadLine_nil (acc : EnvMap) : loadEnvOverridesLine acc [] = acc := rfl

theorem loadEnvOverrides_single (key value : String)
    (hkey : envVarRegexMatch key = true)
    (hq : value.data.any quoteSpecialChar = true)
    (hnb : '\\' ∉ value.data) :
    loadEnvOverrides (writeEnvFileContent [(key, value)] "") = [(key, value)] := by
  obtain ⟨kc, krest, hkdata⟩ := key_data_cons key hkey
  have hcontent : (writeEnvFileContent [(key, value)] "").data
      = (key.data ++ '=' :: (('"' :: escapeC value.data) ++ ['"'])) ++ '\n' :: [] := by
    rw [writeEnvFileContent_single, quoteValueC_quoted value.data hq]
  have hline : loadEnvOverridesLine []
      (key.data ++ '=' :: (('"' :: escapeC value.data) ++ ['"'])) = [(key, value)] := by
    unfold loadEnvOverridesLine
    rw [trim_line_eq key value hkey]
    rw [if_neg (by rw [hkdata, List.cons_append]; simp)]
    rw [if_neg (by
      rw [hkdata, List.cons_append]
      show ¬ (kc :: (krest ++ _)).headD ' ' = '#'
      show ¬ kc = '#'
      exact envKeyChar_ne kc
        (envKey_chars key.data hkey kc (hkdata ▸ List.mem_cons_self kc krest)) '#'
        (by decide) (by decide))]
    rw [splitN2C_append key.data _ (eq_not_in_key key hkey)]
    show upsert [] (String.mk (trimC key.data))
        (String.mk (stripAndUnescape (trimC (('"' :: escapeC value.data) ++ ['"']))))
      = [(key, value)]
    rw [trim_key_eq key hkey, trim_quoted_eq value, stripAndUnescape_quoted value hnb,
      string_mk_data, string_mk_data]
    rfl
  unfold loadEnvOverrides
  rw [hcontent, splitLinesC_append_newline _ _ (newline_not_in_line key value hkey),
    List.foldl_cons]
  rw [show splitLinesC ([] : List Char) = [[]] from rfl, List.foldl_cons,
    List.foldl_nil, hline, loadLine_nil]

/-- Claim C6 counterexample: the value backslash-n-space contains a space,
so the claim as stated covers it, yet the written line does not re-parse to
the original value — loadEnvOverrides unescapes the sequences in an order
that turns the escaped backslash-then-n into a real newline. -/
theorem quoting_roundtrip_cex :
    (loadEnvOverrides (writeEnvFileContent [("K", "\\n ")] "")).lookup "K"
      ≠ some "\\n " := by
  decide

/-- Claim C6 (amended): for every value containing a space, newline, or
hash and containing no backslash, the KEY=VALUE line written by the
synchronizer, when re-parsed by the override-file reader, yields back the
original value exactly. -/
theorem quoting_roundtrip_no_backslash (key value : String)
    (hkey : envVarRegexMatch key = true)
    (hv : ' ' ∈ value.data ∨ '\n' ∈ value.data ∨ '#' ∈ value.data)
    (hnb : '\\' ∉ value.data) :
    (loadEnvOverrides (writeEnvFileContent [(key, value)] "")).lookup key
      = some value := by
  rw [loadEnvOverrides_single key value hkey (any_quoteSpecial_of value.data hv) hnb]
  exact lookup_cons_hit key (key, value) [] rfl

/-- Witness for the amended C6 at a concrete key and value containing a
space, a hash and a newline. -/
theorem quoting_roundtrip_no_backslash_witness :
    (loadEnvOverrides (writeEnvFileContent [("K", "a b#c\nd")] "")).lookup "K"
      = some "a b#c\nd" :=
  quoting_roundtrip_no_backslash "K" "a b#c\nd" (by decide)
    (by decide) (by decide)

/-! ### Idempotence of the per-file synchronization (claim C5)

Rendering the merged map, reading the rendered file back with
ReadKeyValues and merging again must reproduce the same bytes. The
development below characterizes ReadKeyValues on rendered content, shows
the twice-merged map has the same sorted key list and the same lookups as
the once-merged map, and concludes that the rendered bytes coincide. -/

theorem foldl_funext {α β : Type} (f g : β → α → β) (h : ∀ b a, f b a = g b a) :
    ∀ (l : List α) (b : β), l.foldl f b = l.foldl g b := by
  intro l
  induction l with
  | nil => intro b; rfl
  | cons a rest ih =>
    intro b
    rw [List.foldl_cons, List.foldl_cons, h, ih]

theorem lookup_mem {β : Type} (m : List (String × β)) (k : String) (v : β)
    (h : m.lookup k = some v) : (k, v) ∈ m := by
  induction m with
  | nil => rw [lookup_nil] at h; exact Option.noConfusion h
  | cons p rest ih =>
    by_cases hk : k = p.1
    · rw [lookup_cons_hit k p rest hk] at h
      have hv : p.2 = v := by injection h
      rw [← hv, hk]
      exact List.mem_cons_self _ _
    · rw [lookup_cons_miss k p rest hk] at h
      exact List.mem_cons_of_mem p (ih h)

theorem mem_upsert (m : EnvMap) (k v : String) (p : String × String)
    (h : p ∈ upsert m k v) : p ∈ m ∨ p = (k, v) := by
  induction m with
  | nil =>
    rcases List.mem_singleton.mp h with rfl
    exact Or.inr rfl
  | cons q rest ih =>
    by_cases hq : q.1 = k
    · simp only [upsert, if_pos hq] at h
      rcases List.mem_cons.mp h with rfl | hm
      · exact Or.inr rfl
      · exact Or.inl (List.mem_cons_of_mem q hm)
    · simp only [upsert, if_neg hq] at h
      rcases List.mem_cons.mp h with rfl | hm
      · exact Or.inl (List.mem_cons_self _ _)
      · rcases ih hm with hm' | hm'
        · exact Or.inl (List.mem_cons_of_mem q hm')
        · exact Or.inr hm'

theorem readKeyValuesLine_blank (vars : EnvMap) (lineC : List Char)
    (h : ∀ p ∈ vars, p.2 = "") : ∀ p ∈ readKeyValuesLine vars lineC, p.2 = "" := by
  intro p hp
  unfold readKeyValuesLine at hp
  by_cases h1 : trimC lineC = []
  · rw [if_pos h1] at hp; exact h p hp
  · rw [if_neg h1] at hp
    by_cases h2 : (trimC lineC).headD ' ' = '#'
    · rw [if_pos h2] at hp; exact h p hp
    · rw [if_neg h2] at hp
      rcases hE : envLineKeyC (trimC lineC) with _ | key
      · simp only [hE] at hp; exact h p hp
      · simp only [hE] at hp
        rcases mem_upsert vars _ _ p hp with hm | hpv
        · exact h p hm
        · rw [hpv]

theorem readKeyValues_blank (content : Option String) :
    ∀ p ∈ ReadKeyValues content, p.2 = "" := by
  rcases content with _ | text
  · intro p hp
    simp [ReadKeyValues] at hp
  · unfold ReadKeyValues
    exact foldl_inv (fun m => ∀ p ∈ m, p.2 = "") readKeyValuesLine
      (fun b a hb => readKeyValuesLine_blank b a hb)
      (splitLinesC text.data) [] (by intro p hp; simp at hp)

theorem lookup_blank (m : EnvMap) (hb : ∀ p ∈ m, p.2 = "") (k : String) :
    m.lookup k = if k ∈ keysOf m then some "" else none := by
  by_cases hk : k ∈ keysOf m
  · rw [if_pos hk]
    have hs : (m.lookup k).isSome := (lookup_isSome_iff_mem_keys m k).mpr hk
    rcases ho : m.lookup k with _ | v
    · rw [ho] at hs; simp at hs
    · have hv : v = "" := hb (k, v) (lookup_mem m k v ho)
      rw [hv]
  · rw [if_neg hk, (lookup_eq_none_iff_not_mem_keys m k).mpr hk]

theorem readKeyValuesLine_skip (acc : EnvMap) (lineC : List Char)
    (h : skippableLine lineC) : readKeyValuesLine acc lineC = acc := by
  unfold readKeyValuesLine
  rcases h with h | h
  · rw [if_pos h]
  · by_cases h1 : trimC lineC = []
    · rw [if_pos h1]
    · rw [if_neg h1, if_pos h]

theorem foldl_skip (lines : List (List Char)) (h : ∀ l ∈ lines, skippableLine l) :
    ∀ acc : EnvMap, lines.foldl readKeyValuesLine acc = acc := by
  induction lines with
  | nil => intro acc; rfl
  | cons l rest ih =>
    intro acc
    rw [List.foldl_cons, readKeyValuesLine_skip acc l (h l (List.mem_cons_self l rest))]
    exact ih (fun x hx => h x (List.mem_cons_of_mem l hx)) acc

theorem readKeyValuesLine_nil (acc : EnvMap) : readKeyValuesLine acc [] = acc := rfl

theorem splitLinesC_ne_nil (l : List Char) : splitLinesC l ≠ [] := by
  induction l with
  | nil => simp [splitLinesC]
  | cons c rest ih =>
    unfold splitLinesC
    by_cases hc : c = '\n'
    · rw [if_pos hc]; simp
    · rw [if_neg hc]
      rcases hs : splitLinesC rest with _ | ⟨x, xs⟩
      · simp
      · simp

theorem splitLinesC_append_any (a b : List Char) :
    splitLinesC (a ++ '\n' :: b) = splitLinesC a ++ splitLinesC b := by
  induction a with
  | nil =>
    rw [List.nil_append,
      show splitLinesC ('\n' :: b) = [] :: splitLinesC b from by
        simp [splitLinesC]]
    rfl
  | cons c a' ih =>
    by_cases hc : c = '\n'
    · subst hc
      rw [List.cons_append, splitLinesC, if_pos rfl, ih,
        show splitLinesC ('\n' :: a') = [] :: splitLinesC a' from by
          rw [splitLinesC, if_pos rfl]]
      rfl
    · rw [List.cons_append, splitLinesC, if_neg hc, ih]
      rcases hs : splitLinesC a' with _ | ⟨x, xs⟩
      · exact absurd hs (splitLinesC_ne_nil a')
      · rw [splitLinesC, if_neg hc, hs]
        rfl

theorem quoteValueC_no_newline (v : List Char) : '\n' ∉ quoteValueC v := by
  unfold quoteValueC
  by_cases hq : (v.any quoteSpecialChar || decide (trimC v ≠ v)) = true
  · rw [if_pos hq]
    intro hm
    rcases List.mem_append.mp hm with h | h
    · rcases List.mem_cons.mp h with h | h
      · exact absurd h (by decide)
      · exact escapeC_no_newline v h
    · exact absurd (List.mem_singleton.mp h) (by decide)
  · rw [if_neg hq]
    intro hm
    apply hq
    rw [Bool.or_eq_true]
    exact Or.inl (List.any_eq_true.mpr ⟨'\n', hm, by decide⟩)

theorem renderVarLine_data (key value : String) :
    (renderVarLine key value).data = key.data ++ '=' :: quoteValueC value.data := by
  unfold renderVarLine
  rw [String.data_append, String.data_append,
    show ("=" : String).data = ['='] from rfl]
  simp [quoteValue]

theorem renderVarLine_no_newline (key value : String)
    (hk : envVarRegexMatch key = true) :
    '\n' ∉ (renderVarLine key value).data := by
  rw [renderVarLine_data]
  intro hm
  rcases List.mem_append.mp hm with h | h
  · exact envKeyChar_ne '\n' (envKey_chars key.data hk '\n' h) '\n'
      (by decide) (by decide) rfl
  · rcases List.mem_cons.mp h with h | h
    · exact absurd h (by decide)
    · exact quoteValueC_no_newline value.data h

theorem foldl_render_data (g : String → String) (ks : List String) :
    ∀ acc : String,
      (ks.foldl (fun a k => a ++ g k ++ "\n") acc).data
        = acc.data ++ ks.foldr (fun k r => (g k).data ++ '\n' :: r) [] := by
  induction ks with
  | nil => intro acc; simp
  | cons k rest ih =>
    intro acc
    rw [List.foldl_cons, List.foldr_cons, ih, String.data_append,
      String.data_append, show ("\n" : String).data = ['\n'] from rfl]
    simp

theorem writeEnvFileContent_data (vars : EnvMap) (header : String) :
    (writeEnvFileContent vars header).data
      = (if header ≠ "" then header ++ "\n" else "").data
        ++ (sortedKeys vars).foldr
            (fun k r => (renderVarLine k ((vars.lookup k).getD "")).data ++ '\n' :: r)
            [] :=
  foldl_render_data (fun k => renderVarLine k ((vars.lookup k).getD ""))
    (sortedKeys vars) _

theorem splitLines_render_body (vars : EnvMap) (ks : List String)
    (hvalid : ∀ k ∈ ks, envVarRegexMatch k = true) :
    splitLinesC (ks.foldr
        (fun k r => (renderVarLine k ((vars.lookup k).getD "")).data ++ '\n' :: r) [])
      = ks.map (fun k => (renderVarLine k ((vars.lookup k).getD "")).data) ++ [[]] := by
  induction ks with
  | nil => rfl
  | cons k rest ih =>
    rw [List.foldr_cons, splitLinesC_append_newline _ _
        (renderVarLine_no_newline k _ (hvalid k (List.mem_cons_self k rest))),
      ih (fun x hx => hvalid x (List.mem_cons_of_mem k hx)), List.map_cons,
      List.cons_append]

theorem key_split_drop (w : List Char) :
    ∀ rest : List Char, (∀ c ∈ rest, envVarTailChar c = true) →
      (rest ++ '=' :: w).dropWhile envVarTailChar = '=' :: w
        ∧ (rest ++ '=' :: w).takeWhile envVarTailChar = rest := by
  intro rest
  induction rest with
  | nil =>
    intro _
    have h : envVarTailChar '=' = false := by decide
    constructor
    · rw [List.nil_append, List.dropWhile_cons, h]
      rfl
    · rw [List.nil_append, List.takeWhile_cons, h]
      rfl
  | cons c rest' ih =>
    intro hall
    have hc : envVarTailChar c = true := hall c (List.mem_cons_self c rest')
    have ih' := ih (fun x hx => hall x (List.mem_cons_of_mem c hx))
    constructor
    · rw [List.cons_append, List.dropWhile_cons, hc]
      exact ih'.1
    · rw [List.cons_append, List.takeWhile_cons, hc]
      rw [ih'.2]
      rfl

theorem envLineKeyC_key (k w : List Char) (hk : envVarRegexMatchC k = true) :
    envLineKeyC (k ++ '=' :: w) = some k := by
  rcases k with _ | ⟨c, rest⟩
  · exact absurd hk (by decide)
  · have hc : envVarHeadChar c = true ∧ rest.all envVarTailChar = true := by
      simpa [envVarRegexMatchC] using hk
    have hall : ∀ x ∈ rest, envVarTailChar x = true := List.all_eq_true.mp hc.2
    obtain ⟨hdrop, htake⟩ := key_split_drop w rest hall
    rw [List.cons_append, envLineKeyC, if_pos hc.1, hdrop]
    simp [htake]

theorem trimC_key_line (k w : List Char) (hk : envVarRegexMatchC k = true) :
    ∃ w', trimC (k ++ '=' :: w) = k ++ '=' :: w' := by
  rcases k with _ | ⟨c, rest⟩
  · exact absurd hk (by decide)
  · have hc : envVarHeadChar c = true ∨ envVarTailChar c = true :=
      envKey_chars _ hk c (List.mem_cons_self c rest)
    have hcsp : isSpaceChar c = false := envKeyChar_not_space c hc
    unfold trimC
    rw [List.cons_append, dropWhile_cons_false c _ hcsp]
    have hrev : (c :: (rest ++ '=' :: w)).reverse
        = w.reverse ++ '=' :: (rest.reverse ++ [c]) := by
      simp
    rw [hrev, List.dropWhile_append]
    by_cases hemp : (w.reverse.dropWhile isSpaceChar).isEmpty = true
    · rw [if_pos hemp, dropWhile_cons_false '=' _ (by decide)]
      refine ⟨[], ?_⟩
      simp
    · rw [if_neg hemp]
      refine ⟨(w.reverse.dropWhile isSpaceChar).reverse, ?_⟩
      simp

theorem readKeyValuesLine_render (acc : EnvMap) (key : String) (w : List Char)
    (hk : envVarRegexMatch key = true) :
    readKeyValuesLine acc (key.data ++ '=' :: w) = upsert acc key "" := by
  obtain ⟨w', hw⟩ := trimC_key_line key.data w hk
  obtain ⟨c, r, hkd⟩ := key_data_cons key hk
  unfold readKeyValuesLine
  rw [hw]
  have hne : key.data ++ '=' :: w' ≠ [] := by
    rw [hkd]; simp
  rw [if_neg hne]
  have hhead : (key.data ++ '=' :: w').headD ' ' = c := by
    rw [hkd]; rfl
  have hcmem : c ∈ key.data := hkd ▸ List.mem_cons_self c r
  have hc : c ≠ '#' :=
    envKeyChar_ne c (envKey_chars key.data hk c hcmem) '#' (by decide) (by decide)
  rw [if_neg (by rw [hhead]; exact hc), envLineKeyC_key key.data w' hk]

theorem foldl_render_lines (vars : EnvMap) (ks : List String)
    (hvalid : ∀ k ∈ ks, envVarRegexMatch k = true) :
    ∀ acc : EnvMap,
      (ks.map (fun k => (renderVarLine k ((vars.lookup k).getD "")).data)).foldl
          readKeyValuesLine acc
        = ks.foldl (fun a k => upsert a k "") acc := by
  induction ks with
  | nil => intro acc; rfl
  | cons k rest ih =>
    intro acc
    rw [List.map_cons, List.foldl_cons, List.foldl_cons, renderVarLine_data,
      readKeyValuesLine_render acc k _ (hvalid k (List.mem_cons_self k rest))]
    exact ih (fun x hx => hvalid x (List.mem_cons_of_mem k hx)) _

theorem foldl_upsert_blank (ks : List String) :
    ∀ acc : EnvMap, ks.Nodup → (∀ k ∈ ks, k ∉ keysOf acc) →
      ks.foldl (fun a k => upsert a k "") acc = acc ++ ks.map (fun k => (k, "")) := by
  induction ks with
  | nil => intro acc _ _; simp
  | cons k rest ih =>
    intro acc hnd hfresh
    rw [List.foldl_cons,
      upsert_of_not_mem acc k "" (hfresh k (List.mem_cons_self k rest))]
    have hih := ih (acc ++ [(k, "")]) (List.nodup_cons.mp hnd).2 (by
      intro x hx hmem
      rw [keysOf_append] at hmem
      rcases List.mem_append.mp hmem with h | h
      · exact hfresh x (List.mem_cons_of_mem k hx) h
      · have hxk : x = k := List.mem_singleton.mp h
        exact (List.nodup_cons.mp hnd).1 (hxk ▸ hx))
    rw [hih, List.map_cons]
    simp

theorem readKeyValues_render (vars : EnvMap) (header : String)
    (hch : commentHeader header)
    (hnd : NodupKeys vars)
    (hvalid : ∀ k ∈ keysOf vars, envVarRegexMatch k = true) :
    ReadKeyValues (some (writeEnvFileContent vars header))
      = (sortedKeys vars).map (fun k => (k, "")) := by
  have hvalid' : ∀ k ∈ sortedKeys vars, envVarRegexMatch k = true := by
    intro k hk
    exact hvalid k ((List.perm_insertionSort _ _).mem_iff.mp hk)
  have hndS : (sortedKeys vars).Nodup :=
    (List.Perm.nodup_iff (List.perm_insertionSort _ _)).mpr hnd
  have hfresh : ∀ k ∈ sortedKeys vars, k ∉ keysOf ([] : EnvMap) := by
    intro k _ hmem
    simp [keysOf] at hmem
  show List.foldl readKeyValuesLine [] (splitLinesC (writeEnvFileContent vars header).data)
      = List.map (fun k => (k, "")) (sortedKeys vars)
  rw [writeEnvFileContent_data vars header]
  by_cases hh : header = ""
  · subst hh
    rw [if_neg (by simp), show ("" : String).data = [] from rfl, List.nil_append,
      splitLines_render_body vars _ hvalid', List.foldl_append, List.foldl_cons,
      List.foldl_nil, readKeyValuesLine_nil, foldl_render_lines vars _ hvalid' [],
      foldl_upsert_blank _ [] hndS hfresh, List.nil_append]
  · rw [if_pos hh, String.data_append, show ("\n" : String).data = ['\n'] from rfl,
      List.append_assoc, List.singleton_append, splitLinesC_append_any,
      List.foldl_append, foldl_skip _ (fun l hl => hch l hl) [],
      splitLines_render_body vars _ hvalid', List.foldl_append, List.foldl_cons,
      List.foldl_nil, readKeyValuesLine_nil, foldl_render_lines vars _ hvalid' [],
      foldl_upsert_blank _ [] hndS hfresh, List.nil_append]

theorem listLeB_total (a : List Char) :
    ∀ b : List Char, listLeB a b = true ∨ listLeB b a = true := by
  induction a with
  | nil => intro b; exact Or.inl rfl
  | cons x xs ih =>
    intro b
    rcases b with _ | ⟨y, ys⟩
    · exact Or.inr rfl
    · by_cases hxy : x = y
      · subst hxy
        rcases ih ys with h | h
        · exact Or.inl (by rw [listLeB, if_pos rfl]; exact h)
        · exact Or.inr (by rw [listLeB, if_pos rfl]; exact h)
      · rcases lt_trichotomy x y with hlt | heq | hgt
        · exact Or.inl (by rw [listLeB, if_neg hxy]; exact decide_eq_true hlt)
        · exact absurd heq hxy
        · exact Or.inr (by
            rw [listLeB, if_neg (fun h => hxy h.symm)]
            exact decide_eq_true hgt)

theorem listLeB_trans (a : List Char) :
    ∀ b c : List Char, listLeB a b = true → listLeB b c = true →
      listLeB a c = true := by
  induction a with
  | nil => intro b c _ _; rfl
  | cons x xs ih =>
    intro b c hab hbc
    rcases b with _ | ⟨y, ys⟩
    · rw [show listLeB (x :: xs) [] = false from rfl] at hab
      exact Bool.noConfusion hab
    · rcases c with _ | ⟨z, zs⟩
      · rw [show listLeB (y :: ys) [] = false from rfl] at hbc
        exact Bool.noConfusion hbc
      · rw [listLeB] at hab hbc ⊢
        by_cases hxy : x = y
        · subst hxy
          rw [if_pos rfl] at hab
          by_cases hyz : x = z
          · subst hyz
            rw [if_pos rfl] at hbc
            rw [if_pos rfl]
            exact ih ys zs hab hbc
          · rw [if_neg hyz] at hbc
            rw [if_neg hyz]
            exact hbc
        · rw [if_neg hxy] at hab
          have hxylt : x < y := of_decide_eq_true hab
          by_cases hyz : y = z
          · subst hyz
            rw [if_neg hxy]
            exact hab
          · have hyzlt : y < z := of_decide_eq_true (by
              rw [if_neg hyz] at hbc; exact hbc)
            have hxz : x < z := lt_trans hxylt hyzlt
            rw [if_neg (ne_of_lt hxz)]
            exact decide_eq_true hxz

theorem listLeB_antisymm (a : List Char) :
    ∀ b : List Char, listLeB a b = true → listLeB b a = true → a = b := by
  induction a with
  | nil =>
    intro b _ hba
    rcases b with _ | ⟨y, ys⟩
    · rfl
    · rw [show listLeB (y :: ys) [] = false from rfl] at hba
      exact Bool.noConfusion hba
  | cons x xs ih =>
    intro b hab hba
    rcases b with _ | ⟨y, ys⟩
    · rw [show listLeB (x :: xs) [] = false from rfl] at hab
      exact Bool.noConfusion hab
    · rw [listLeB] at hab hba
      by_cases hxy : x = y
      · subst hxy
        rw [if_pos rfl] at hab hba
        rw [ih ys hab hba]
      · rw [if_neg hxy] at hab
        rw [if_neg (fun h => hxy h.symm)] at hba
        exact absurd (of_decide_eq_true hab) (asymm (of_decide_eq_true hba))

theorem sortedKeys_perm_eq (m₁ m₂ : EnvMap)
    (h : (keysOf m₁).Perm (keysOf m₂)) : sortedKeys m₁ = sortedKeys m₂ := by
  haveI htot : IsTotal String (fun a b => strLeB a b = true) :=
    ⟨fun a b => listLeB_total a.data b.data⟩
  haveI htr : IsTrans String (fun a b => strLeB a b = true) :=
    ⟨fun a b c hab hbc => listLeB_trans a.data b.data c.data hab hbc⟩
  haveI hanti : IsAntisymm String (fun a b => strLeB a b = true) :=
    ⟨fun a b hab hba => by
      have hd : a.data = b.data := listLeB_antisymm a.data b.data hab hba
      cases a; cases b; exact congrArg String.mk hd⟩
  unfold sortedKeys
  refine List.eq_of_perm_of_sorted ?_
    (List.sorted_insertionSort _ _) (List.sorted_insertionSort _ _)
  exact ((List.perm_insertionSort _ _).trans h).trans
    (List.perm_insertionSort _ _).symm

theorem writeEnvFileContent_congr (m₁ m₂ : EnvMap) (header : String)
    (hks : sortedKeys m₁ = sortedKeys m₂)
    (hlook : ∀ k, m₁.lookup k = m₂.lookup k) :
    writeEnvFileContent m₁ header = writeEnvFileContent m₂ header := by
  unfold writeEnvFileContent
  rw [hks]
  exact foldl_funext _ _ (fun acc k => by rw [hlook k]) (sortedKeys m₂) _

theorem merge_nodupKeys (n e : EnvMap) (mappings : List (String × Mapping))
    (hn : NodupKeys n) (he : NodupKeys e) :
    NodupKeys (MergeRetainUnknowns n e mappings) := by
  rw [merge_eq n e mappings hn he]
  unfold NodupKeys
  rw [keysOf_append]
  refine List.Nodup.append hn
    (List.Nodup.sublist ((List.filter_sublist e).map Prod.fst) he) ?_
  intro a ha hb
  rcases List.mem_map.mp hb with ⟨p, hp, hpa⟩
  have hg := (List.mem_filter.mp hp).2
  have hnone : (n.lookup p.1).isNone = true := ((Bool.and_eq_true _ _).mp hg).2
  rw [hpa] at hnone
  exact (lookup_eq_none_iff_not_mem_keys n a).mp
    (Option.isNone_iff_eq_none.mp hnone) ha

theorem readKeyValues_keys_valid (content : Option String) :
    ∀ k ∈ keysOf (ReadKeyValues content), envVarRegexMatch k = true := by
  intro k hk
  rcases content with _ | text
  · simp [ReadKeyValues, keysOf] at hk
  · unfold ReadKeyValues at hk
    rcases readKeyValues_keys_from_lines (splitLinesC text.data) [] k hk
      with h | ⟨lineC, _, he⟩
    · simp [keysOf] at h
    · exact envLineKeyC_valid _ _ he

theorem resync_eq (resolved F : EnvMap) (mappings : List (String × Mapping))
    (header : String)
    (hnd : NodupKeys resolved)
    (hndF : NodupKeys (resolved ++ F))
    (hvalid : ∀ k ∈ keysOf (resolved ++ F), envVarRegexMatch k = true)
    (hblank : ∀ p ∈ F, p.2 = "")
    (hg : ∀ p ∈ F,
      ((mappings.lookup p.1).isNone && (resolved.lookup p.1).isNone) = true)
    (hch : commentHeader header) :
    writeEnvFileContent
        (MergeRetainUnknowns resolved
          (ReadKeyValues (some (writeEnvFileContent (resolved ++ F) header)))
          mappings)
        header
      = writeEnvFileContent (resolved ++ F) header := by
  have hR : ReadKeyValues (some (writeEnvFileContent (resolved ++ F) header))
      = (sortedKeys (resolved ++ F)).map (fun k => (k, "")) :=
    readKeyValues_render (resolved ++ F) header hch hndF hvalid
  rw [hR]
  have hkeysMap : ∀ X : List String,
      keysOf (X.map (fun k => (k, ("" : String)))) = X := by
    intro X
    unfold keysOf
    rw [List.map_map]
    exact List.map_id _
  have hndR : NodupKeys ((sortedKeys (resolved ++ F)).map (fun k => (k, ""))) := by
    unfold NodupKeys
    rw [hkeysMap]
    exact (List.Perm.nodup_iff (List.perm_insertionSort _ _)).mpr hndF
  have hM2 : MergeRetainUnknowns resolved
        ((sortedKeys (resolved ++ F)).map (fun k => (k, ""))) mappings
      = resolved
        ++ ((sortedKeys (resolved ++ F)).map (fun k => (k, ""))).filter
            (fun p => (mappings.lookup p.1).isNone && (resolved.lookup p.1).isNone) :=
    merge_eq resolved _ mappings hnd hndR
  have hcomp : ((fun p : String × String =>
        (mappings.lookup p.1).isNone && (resolved.lookup p.1).isNone)
          ∘ (fun k => (k, ("" : String))))
      = (fun k => (mappings.lookup k).isNone && (resolved.lookup k).isNone) := rfl
  have hRfilt : ((sortedKeys (resolved ++ F)).map (fun k => (k, ("" : String)))).filter
        (fun p => (mappings.lookup p.1).isNone && (resolved.lookup p.1).isNone)
      = ((sortedKeys (resolved ++ F)).filter
          (fun k => (mappings.lookup k).isNone && (resolved.lookup k).isNone)).map
          (fun k => (k, "")) := by
    rw [List.filter_map, hcomp]
  have heq2 : (keysOf (resolved ++ F)).filter
        (fun k => (mappings.lookup k).isNone && (resolved.lookup k).isNone)
      = keysOf F := by
    rw [keysOf_append, List.filter_append]
    have h1 : (keysOf resolved).filter
          (fun k => (mappings.lookup k).isNone && (resolved.lookup k).isNone)
        = [] := by
      rw [List.filter_eq_nil_iff]
      intro k hk hq
      have hnone := ((Bool.and_eq_true _ _).mp hq).2
      have hsome := (lookup_isSome_iff_mem_keys resolved k).mpr hk
      rw [Option.isNone_iff_eq_none.mp hnone] at hsome
      simp at hsome
    have h2 : (keysOf F).filter
          (fun k => (mappings.lookup k).isNone && (resolved.lookup k).isNone)
        = keysOf F := by
      rw [List.filter_eq_self]
      intro k hk
      rcases List.mem_map.mp hk with ⟨p, hp, hpk⟩
      rw [← hpk]
      exact hg p hp
    rw [h1, h2, List.nil_append]
  have hpermfilt : (keysOf (((sortedKeys (resolved ++ F)).map
          (fun k => (k, ("" : String)))).filter
        (fun p => (mappings.lookup p.1).isNone && (resolved.lookup p.1).isNone))).Perm
      (keysOf F) := by
    rw [hRfilt, hkeysMap, ← heq2]
    exact List.Perm.filter _ (List.perm_insertionSort _ _)
  have hpermM : (keysOf (resolved
        ++ (((sortedKeys (resolved ++ F)).map (fun k => (k, ("" : String)))).filter
            (fun p => (mappings.lookup p.1).isNone
              && (resolved.lookup p.1).isNone)))).Perm
      (keysOf (resolved ++ F)) := by
    rw [keysOf_append, keysOf_append]
    exact List.Perm.append_left (keysOf resolved) hpermfilt
  have hblankR : ∀ p ∈ ((sortedKeys (resolved ++ F)).map
        (fun k => (k, ("" : String)))).filter
        (fun p => (mappings.lookup p.1).isNone && (resolved.lookup p.1).isNone),
      p.2 = "" := by
    intro p hp
    rcases List.mem_map.mp (List.mem_filter.mp hp).1 with ⟨k, _, hpk⟩
    rw [← hpk]
  have hlook : ∀ k,
      (resolved
        ++ (((sortedKeys (resolved ++ F)).map (fun k => (k, ("" : String)))).filter
            (fun p => (mappings.lookup p.1).isNone
              && (resolved.lookup p.1).isNone))).lookup k
        = (resolved ++ F).lookup k := by
    intro k
    by_cases hkr : k ∈ keysOf resolved
    · rw [lookup_append_left _ _ k hkr, lookup_append_left _ _ k hkr]
    · rw [lookup_append_right _ _ k hkr, lookup_append_right _ _ k hkr,
        lookup_blank _ hblankR k, lookup_blank F hblank k]
      have hmemiff : k ∈ keysOf (((sortedKeys (resolved ++ F)).map
            (fun k => (k, ("" : String)))).filter
            (fun p => (mappings.lookup p.1).isNone
              && (resolved.lookup p.1).isNone))
          ↔ k ∈ keysOf F := hpermfilt.mem_iff
      by_cases hkF : k ∈ keysOf F
      · rw [if_pos (hmemiff.mpr hkF), if_pos hkF]
      · rw [if_neg (fun h => hkF (hmemiff.mp h)), if_neg hkF]
  rw [hM2]
  exact writeEnvFileContent_congr _ _ header
    (sortedKeys_perm_eq _ _ hpermM) hlook

/-- C5: running the per-file synchronization twice in a row with the same
resolved input produces byte-identical output. Reading the keys back from
the first rendered file, merging them with the same resolved map and
mappings, and rendering again yields exactly the bytes of the first
rendering. The hypotheses state what writeEnvFiles guarantees for its
inputs: the resolved keys are validated environment-variable names without
duplicates, and the header WriteEnvFile receives is a comment block. -/
theorem sync_idempotent (existing : Option String) (resolved : EnvMap)
    (mappings : List (String × Mapping)) (header : String)
    (hnd : NodupKeys resolved)
    (hkeys : ∀ k ∈ keysOf resolved, envVarRegexMatch k = true)
    (hch : commentHeader header) :
    syncEnvFile (some (syncEnvFile existing resolved mappings header))
        resolved mappings header
      = syncEnvFile existing resolved mappings header := by
  have hndE : NodupKeys (ReadKeyValues existing) := readKeyValues_nodup existing
  have hM1 : MergeRetainUnknowns resolved (ReadKeyValues existing) mappings
      = resolved ++ (ReadKeyValues existing).filter
          (fun p => (mappings.lookup p.1).isNone && (resolved.lookup p.1).isNone) :=
    merge_eq resolved (ReadKeyValues existing) mappings hnd hndE
  have hndF : NodupKeys (resolved ++ (ReadKeyValues existing).filter
      (fun p => (mappings.lookup p.1).isNone && (resolved.lookup p.1).isNone)) := by
    rw [← hM1]
    exact merge_nodupKeys resolved (ReadKeyValues existing) mappings hnd hndE
  have hvalidF : ∀ k ∈ keysOf (resolved ++ (ReadKeyValues existing).filter
      (fun p => (mappings.lookup p.1).isNone && (resolved.lookup p.1).isNone)),
      envVarRegexMatch k = true := by
    intro k hk
    rw [keysOf_append] at hk
    rcases List.mem_append.mp hk with h | h
    · exact hkeys k h
    · exact readKeyValues_keys_valid existing k (keysOf_filter_subset _ _ k h)
  have hblankF : ∀ p ∈ (ReadKeyValues existing).filter
      (fun p => (mappings.lookup p.1).isNone && (resolved.lookup p.1).isNone),
      p.2 = "" := by
    intro p hp
    exact readKeyValues_blank existing p (List.mem_filter.mp hp).1
  have hgF : ∀ p ∈ (ReadKeyValues existing).filter
      (fun p => (mappings.lookup p.1).isNone && (resolved.lookup p.1).isNone),
      ((mappings.lookup p.1).isNone && (resolved.lookup p.1).isNone) = true := by
    intro p hp
    exact (List.mem_filter.mp hp).2
  unfold syncEnvFile
  rw [hM1]
  exact resync_eq resolved _ mappings header hnd hndF hvalidF hblankF hgF hch

theorem sync_idempotent_witness :
    syncEnvFile
        (some (syncEnvFile (some "UNMANAGED=keep\n# note\n")
          [("APP_KEY", "v 1"), ("OTHER", "plain")]
          [("APP_KEY", ⟨none, none, "keyvault", "app-key"⟩)]
          "# Generated by yeet"))
        [("APP_KEY", "v 1"), ("OTHER", "plain")]
        [("APP_KEY", ⟨none, none, "keyvault", "app-key"⟩)]
        "# Generated by yeet"
      = syncEnvFile (some "UNMANAGED=keep\n# note\n")
          [("APP_KEY", "v 1"), ("OTHER", "plain")]
          [("APP_KEY", ⟨none, none, "keyvault", "app-key"⟩)]
          "# Generated by yeet" :=
  sync_idempotent _ _ _ _
    (by unfold NodupKeys keysOf; decide)
    (by decide)
    (by unfold commentHeader skippableLine; decide)

end Yeet
